import Mathlib

/-!
Verification of the CommandParser Arduino library (CommandParser.h).

The C++ source is shallowly embedded here.  Conventions of the embedding:

* C null-terminated byte strings are modelled as `List Char`; the end of the
  list plays the role of the `'\0'` terminator, and every place where the C
  code compares a character against `'\0'` the model also treats an explicit
  `Char.ofNat 0` element as a terminator, mirroring C-string semantics.
* 64-bit machine integers are modelled as unbounded `Int` together with an
  explicit wraparound applied after every arithmetic operation that the C
  code performs on `int64_t` / `uint64_t` values (`wrap64` is two's-complement
  wraparound at 64 bits, `wrapU64` is reduction mod `2 ^ 64`).  Signed
  overflow is undefined behaviour in C; the model uses the two's-complement
  wraparound actually produced on the library's target platforms.
* C integer division (which truncates toward zero) is `Int.tdiv`.
* functions that signal failure by returning `0` bytes read keep that exact
  convention; functions that signal failure via a `bool` return an `Option`.
-/

namespace CommandParser

/-- Two's-complement wraparound of an `Int` into the `int64_t` range
`[-2 ^ 63, 2 ^ 63 - 1]`. -/
def wrap64 (x : Int) : Int := (x + 2 ^ 63) % 2 ^ 64 - 2 ^ 63

/-- Wraparound of an `Int` into the `uint64_t` range `[0, 2 ^ 64 - 1]`. -/
def wrapU64 (x : Int) : Int := x % 2 ^ 64

/-- `LLONG_MIN`: the smallest `int64_t` value. -/
def INT64_MIN : Int := -(2 ^ 63)

/-- `LLONG_MAX`: the largest `int64_t` value. -/
def INT64_MAX : Int := 2 ^ 63 - 1

/-- `ULLONG_MAX`: the largest `uint64_t` value. -/
def UINT64_MAX : Int := 2 ^ 64 - 1

/-- The digit-decoding cascade in the loop of `strToInt` (CommandParser.h):
`'0'`-`'1'` for base ≥ 2, `'2'`-`'7'` for base ≥ 8, `'8'`-`'9'` for base ≥ 10,
`'a'`-`'f'` and `'A'`-`'F'` for base ≥ 16; any other character (including a
terminator) ends the digit loop.  The C code computes e.g. `(c - '2') + 2`,
which is written here in the same form. -/
def digitVal (base : Int) (c : Char) : Option Int :=
  if base ≥ 2 ∧ '0' ≤ c ∧ c ≤ '1' then some ((c.toNat : Int) - ('0'.toNat : Int))
  else if base ≥ 8 ∧ '2' ≤ c ∧ c ≤ '7' then some ((c.toNat : Int) - ('2'.toNat : Int) + 2)
  else if base ≥ 10 ∧ '8' ≤ c ∧ c ≤ '9' then some ((c.toNat : Int) - ('8'.toNat : Int) + 8)
  else if base ≥ 16 ∧ 'a' ≤ c ∧ c ≤ 'f' then some ((c.toNat : Int) - ('a'.toNat : Int) + 10)
  else if base ≥ 16 ∧ 'A' ≤ c ∧ c ≤ 'F' then some ((c.toNat : Int) - ('A'.toNat : Int) + 10)
  else none

/-- The digit-accumulation loop of `strToInt`.  `v` is the current `*value`,
`n` the number of digits consumed so far.  Returns `(earlyReturn, value,
digits)`: `earlyReturn = true` corresponds to the two `return 0` statements
guarding against multiplication and addition overflow (`value` then holds
whatever `*value` contained at that point); otherwise the loop ended at the
first non-digit, with `value` the accumulated value and `digits` the digit
count.  Every `int64_t`/`uint64_t` arithmetic step is wrapped. -/
def accumDigits (wrap : Int → Int) (mn mx base : Int) (isNeg : Bool) :
    List Char → Int → Nat → Bool × Int × Nat
  | [], v, n => (false, v, n)
  | c :: rest, v, n =>
    match digitVal base c with
    | none => (false, v, n)
    | some d =>
      if v < mn.tdiv base ∨ v > mx.tdiv base then (true, v, n)
      else
        let v1 := wrap (v * base)
        if (if isNeg then v1 < mn + d else v1 > mx - d) then (true, v1, n)
        else accumDigits wrap mn mx base isNeg rest (wrap (v1 + d)) (n + 1)

/-- `strToInt<T>(buf, value, min_value, max_value)` from CommandParser.h,
with `T` determined by `(wrap, mn, mx)`.  Returns `(bytesRead, *value)`:
`bytesRead = 0` signals a parse failure, in which case `*value` holds
whatever the function last stored there (the header documents it as "an
arbitrary value").  The sign is only parsed when `min_value < 0`; an
optional `0b`/`0o`/`0x` base marker follows; then the digit loop; finally
the accumulated magnitude is negated when the sign was `'-'`. -/
def strToIntGen (wrap : Int → Int) (mn mx : Int) (buf : List Char) : Nat × Int :=
  let c0 := buf.headD (Char.ofNat 0)
  let hasSign := decide (mn < 0) && (c0 == '+' || c0 == '-')
  let isNeg := decide (mn < 0) && c0 == '-'
  let b1 := if hasSign then buf.drop 1 else buf
  let d0 := b1.headD (Char.ofNat 0)
  let d1 := (b1.drop 1).headD (Char.ofNat 0)
  let base : Int :=
    if d0 == '0' && d1 == 'b' then 2
    else if d0 == '0' && d1 == 'o' then 8
    else if d0 == '0' && d1 == 'x' then 16
    else 10
  let pre : Nat := if base == 10 then 0 else 2
  let b2 := if base == 10 then b1 else b1.drop 2
  match accumDigits wrap mn mx base isNeg b2 0 0 with
  | (true, v, _) => (0, v)
  | (false, v, n) =>
    let v2 := if isNeg then wrap (-v) else v
    if n = 0 then (0, v2)
    else ((if hasSign then 1 else 0) + pre + n, v2)

/-- One hexadecimal digit, as decoded by the `\xNN` escape loop of the
first (quoted-or-unquoted) `parseString`: `'0'`-`'9'`, `'a'`-`'f'`,
`'A'`-`'F'`. -/
def hexDigit (c : Char) : Option Nat :=
  if '0' ≤ c ∧ c ≤ '9' then some (c.toNat - '0'.toNat)
  else if 'a' ≤ c ∧ c ≤ 'f' then some (c.toNat - 'a'.toNat + 10)
  else if 'A' ≤ c ∧ c ≤ 'F' then some (c.toNat - 'A'.toNat + 10)
  else none

/-- The character-copying loop of the first `parseString` variant
(quoted or unquoted strings).  Arguments: remaining input, `readCount` so
far, loop counter `i`, output accumulated in reverse.  The loop runs while
`i < asz` and the current character is not a terminator; it breaks at an
unescaped `'"'` (quoted) or `' '` (unquoted); a backslash starts an escape
sequence (`\n`, `\r`, `\t`, `\"`, `\\`, or `\xNN` with exactly two hex
digits); an unknown escape is the C `return 0`, modelled as `none`.
Returns the reversed output, the final `readCount`, the final `i` and the
unprocessed remainder of the input. -/
def psLoop (asz : Nat) (isQuoted : Bool) :
    List Char → Nat → Nat → List Char → Option (List Char × Nat × Nat × List Char)
  | [], rc, i, out => some (out, rc, i, [])
  | c :: rest, rc, i, out =>
    if i ≥ asz ∨ c = Char.ofNat 0 then some (out, rc, i, c :: rest)
    else if (if isQuoted then c = '"' else c = ' ') then some (out, rc, i, c :: rest)
    else if c = '\\' then
      match rest with
      | [] => none
      | e :: rest2 =>
        if e = 'n' then psLoop asz isQuoted rest2 (rc + 2) (i + 1) ('\n' :: out)
        else if e = 'r' then psLoop asz isQuoted rest2 (rc + 2) (i + 1) ('\r' :: out)
        else if e = 't' then psLoop asz isQuoted rest2 (rc + 2) (i + 1) ('\t' :: out)
        else if e = '"' then psLoop asz isQuoted rest2 (rc + 2) (i + 1) ('"' :: out)
        else if e = '\\' then psLoop asz isQuoted rest2 (rc + 2) (i + 1) ('\\' :: out)
        else if e = 'x' then
          match rest2 with
          | c1 :: c2 :: rest3 =>
            match hexDigit c1, hexDigit c2 with
            | some d1, some d2 =>
              psLoop asz isQuoted rest3 (rc + 4) (i + 1) (Char.ofNat (d1 * 16 + d2) :: out)
            | _, _ => none
          | _ => none
        else none
    else psLoop asz isQuoted rest (rc + 1) (i + 1) (c :: out)

/-- The first `parseString(buf, output)` variant of CommandParser.h, which
accepts either a quoted string (leading `'"'`, ends at the unescaped
closing quote, which is consumed) or an unquoted word (ends at a space or
the terminator).  `asz` is `MAX_COMMAND_ARG_SIZE`.  Returns
`some (readCount, output)`; the escape-failure `return 0` paths are
`none`.  As in C, a normal return with `readCount = 0` (possible only for
an unquoted string that consumed nothing) is also treated as a failure by
the caller. -/
def parseString1 (asz : Nat) (buf : List Char) : Option (Nat × List Char) :=
  let isQuoted := buf.headD (Char.ofNat 0) = '"'
  let rc0 := if isQuoted then 1 else 0
  match psLoop asz isQuoted (buf.drop rc0) rc0 0 [] with
  | none => none
  | some (out, rc, _, remaining) =>
    if isQuoted then
      match remaining with
      | '"' :: _ => some (rc + 1, out.reverse)
      | _ => none
    else some (rc, out.reverse)

/-- `strtol(hexCode, &afterHexCode, 16)` applied to the two-character
buffer `{c1, c2, '\0'}` built by the `\xNN` escape case of the second
(quoted-only) `parseString` variant.  This is the C library function,
which is outside this repository; it is modelled by its specified
behaviour on two-character inputs: optional leading whitespace, optional
sign, then hexadecimal digits (an `0x` prefix without a following digit is
not consumed past the `0`).  Returns `(value, charsConsumed)`, where
`charsConsumed` is `afterHexCode - hexCode` (0 when no conversion was
performed). -/
def strtolHex2 (c1 c2 : Char) : Int × Nat :=
  let isWs : Char → Bool := fun c =>
    c == ' ' || c == '\t' || c == '\n' || c == '\x0b' || c == '\x0c' || c == '\r'
  match hexDigit c1 with
  | some d1 =>
    match hexDigit c2 with
    | some d2 => ((d1 * 16 + d2 : Nat), 2)
    | none => ((d1 : Nat), 1)
  | none =>
    if isWs c1 then
      match hexDigit c2 with
      | some d2 => ((d2 : Nat), 2)
      | none => (0, 0)
    else if c1 = '+' then
      match hexDigit c2 with
      | some d2 => ((d2 : Nat), 2)
      | none => (0, 0)
    else if c1 = '-' then
      match hexDigit c2 with
      | some d2 => (-(d2 : Int), 2)
      | none => (0, 0)
    else (0, 0)

/-- The character-copying loop of the second (quoted-only) `parseString`
variant.  The loop runs while `i < asz` and the current character is
neither `'"'` nor a terminator; escapes as in the first variant except
that `\xNN` is decoded by `strtol` on the two-character buffer
`{buf[pos], buf[pos] == '\0' ? '\0' : buf[pos+1], '\0'}`, requiring at
least one character converted and the whole buffer consumed, and advancing
`pos` by the number of characters `strtol` consumed; the converted value
is stored cast to a byte.  Returns the reversed output and the remainder,
or `none` for the C `return false` paths. -/
def psLoop2 (asz : Nat) :
    List Char → Nat → Nat → List Char → Option (List Char × Nat × List Char)
  | [], pos, _, out => some (out, pos, [])
  | c :: rest, pos, i, out =>
    if i ≥ asz ∨ c = '"' ∨ c = Char.ofNat 0 then some (out, pos, c :: rest)
    else if c = '\\' then
      match rest with
      | [] => none
      | e :: rest2 =>
        if e = 'n' then psLoop2 asz rest2 (pos + 2) (i + 1) ('\n' :: out)
        else if e = 'r' then psLoop2 asz rest2 (pos + 2) (i + 1) ('\r' :: out)
        else if e = 't' then psLoop2 asz rest2 (pos + 2) (i + 1) ('\t' :: out)
        else if e = '"' then psLoop2 asz rest2 (pos + 2) (i + 1) ('"' :: out)
        else if e = '\\' then psLoop2 asz rest2 (pos + 2) (i + 1) ('\\' :: out)
        else if e = 'x' then
          match rest2 with
          | [] => none
          | [c1] =>
            let vn := strtolHex2 c1 (Char.ofNat 0)
            let hexLen : Nat := if c1 = Char.ofNat 0 then 0 else 1
            if vn.2 = 0 ∨ vn.2 ≠ hexLen then none
            else some (Char.ofNat ((vn.1 % 256).toNat) :: out, pos + 2 + vn.2, [])
          | c1 :: c2O :: rest3 =>
            let c2 := if c1 = Char.ofNat 0 then Char.ofNat 0 else c2O
            let vn := strtolHex2 c1 c2
            let hexLen : Nat :=
              if c1 = Char.ofNat 0 then 0 else if c2 = Char.ofNat 0 then 1 else 2
            if vn.2 = 0 ∨ vn.2 ≠ hexLen then none
            else if vn.2 = 1 then
              psLoop2 asz (c2O :: rest3) (pos + 2 + 1) (i + 1)
                (Char.ofNat ((vn.1 % 256).toNat) :: out)
            else
              psLoop2 asz rest3 (pos + 2 + 2) (i + 1)
                (Char.ofNat ((vn.1 % 256).toNat) :: out)
        else none
    else psLoop2 asz rest (pos + 1) (i + 1) (c :: out)

/-- The second `parseString(buf, output, readCount)` variant of
CommandParser.h (quoted strings only): requires a leading `'"'`, decodes
until the unescaped closing quote, fails (`none`) if the quote is missing
before the terminator (or before the loop bound is exhausted without
finding it).  Returns `some (readCount, output)` for `return true`. -/
def parseString2 (asz : Nat) (buf : List Char) : Option (Nat × List Char) :=
  match buf with
  | [] => none
  | c :: rest =>
    if c ≠ '"' then none
    else
      match psLoop2 asz rest 1 0 [] with
      | none => none
      | some (out, pos, remaining) =>
        match remaining with
        | '"' :: _ => some (pos + 1, out.reverse)
        | _ => none

/-- `strToInt<int64_t>` as instantiated by the `'i'` case of
`processCommand` (`LLONG_MIN`, `LLONG_MAX`). -/
def strToInt64 (buf : List Char) : Nat × Int :=
  strToIntGen wrap64 INT64_MIN INT64_MAX buf

/-- `strToInt<uint64_t>` as instantiated by the `'u'` case of
`processCommand` (`0`, `ULLONG_MAX`). -/
def strToUInt64 (buf : List Char) : Nat × Int :=
  strToIntGen wrapU64 0 UINT64_MAX buf

/-- The five compile-time size limits of the `CommandParser<...>` template
(`COMMANDS`, `COMMAND_ARGS`, `COMMAND_NAME_LENGTH`, `COMMAND_ARG_SIZE`,
`RESPONSE_SIZE`). -/
structure Config where
  maxCommands : Nat
  maxCommandArgs : Nat
  maxCommandNameLength : Nat
  maxCommandArgSize : Nat
  maxResponseSize : Nat
  deriving Repr, DecidableEq

/-- The default template arguments `CommandParser<16, 4, 10, 32, 64>`. -/
def defaultConfig : Config := ⟨16, 4, 10, 32, 64⟩

/-- One entry of the `union Argument` array.  In the C code the union is
untyped storage; here the constructor records which member was last
written.  `uninit` is storage never written by any parse.  The `double`
member's numeric value is not modelled (floating point is outside the
scope of this development): `dbl` records the source text the C code
passed to `strtod`. -/
inductive Argument where
  | uninit : Argument
  | dbl (text : List Char) : Argument
  | u64 (v : Int) : Argument
  | i64 (v : Int) : Argument
  | str (s : List Char) : Argument
  deriving Repr, DecidableEq

/-- One `struct Command` of the registry: the stored (null-free) name and
argument-type string, and the callback.  Callbacks are opaque function
pointers in C; they are modelled by a numeric identifier, with `0`
standing for `nullptr`. -/
structure Command where
  name : List Char
  argTypes : List Char
  cb : Nat
  deriving Repr, DecidableEq

/-- The mutable state owned by a `CommandParser` instance: the shared
argument-value array `commandArgs` (length `MAX_COMMAND_ARGS`, reused
across calls) and the registry `commandDefinitions` with its count
`numCommands`, modelled as the list of registered commands. -/
structure PState where
  commandArgs : List Argument
  commands : List Command
  deriving Repr, DecidableEq

/-- A freshly constructed `CommandParser`: no commands registered,
argument storage uninitialised. -/
def initState (cfg : Config) : PState :=
  ⟨List.replicate cfg.maxCommandArgs .uninit, []⟩

/-- `registerCommand(name, argTypes, callback)`: fails (returning the
state unchanged and `false`) when the registry is full, the name or the
argument-type string is over-long, the callback is null, or some
argument-type character is not one of `d`, `u`, `i`, `s`; otherwise
appends the new command and returns `true`. -/
def registerCommand (cfg : Config) (st : PState) (name argTypes : List Char) (cb : Nat) :
    PState × Bool :=
  if st.commands.length = cfg.maxCommands then (st, false)
  else if name.length > cfg.maxCommandNameLength then (st, false)
  else if argTypes.length > cfg.maxCommandArgs then (st, false)
  else if cb = 0 then (st, false)
  else if argTypes.all (fun c => c == 'd' || c == 'u' || c == 'i' || c == 's') then
    ({ st with commands := st.commands ++ [⟨name, argTypes, cb⟩] }, true)
  else (st, false)

/-- The name-extraction loop at the top of `processCommand`: copies up to
`n = MAX_COMMAND_NAME_LENGTH` characters, stopping at a space or the
terminator, and returns the extracted name together with the rest of the
input (the cursor `command` is advanced only past the copied
characters). -/
def splitName (n : Nat) : List Char → List Char × List Char
  | [] => ([], [])
  | c :: rest =>
    if n = 0 ∨ c = ' ' ∨ c = Char.ofNat 0 then ([], c :: rest)
    else
      let p := splitName (n - 1) rest
      (c :: p.1, p.2)

/-- The registry scan of `processCommand`: the first registered command
whose stored name compares equal (`strcmp`) to the extracted name. -/
def lookupCommand (cmds : List Command) (name : List Char) : Option Command :=
  cmds.find? (fun c => c.name == name)

/-- A decimal digit, as consumed by the float grammar. -/
def isDec (c : Char) : Bool := '0' ≤ c && c ≤ '9'

/-- Count a maximal run of decimal digits; returns the count and the
remainder of the input. -/
def decSpan : List Char → Nat × List Char
  | [] => (0, [])
  | c :: r => if isDec c then ((decSpan r).1 + 1, (decSpan r).2) else (0, c :: r)

/-- The exponent part of the float grammar: `e`/`E`, an optional sign,
and at least one digit; an exponent that is missing its digits is not
consumed (`strtod` backtracks to the end of the mantissa). -/
def strtodExp (y : List Char) : Nat :=
  match y with
  | c :: r =>
    if c = 'e' ∨ c = 'E' then
      let q0 : Nat × List Char :=
        match r with
        | c2 :: r2 => if c2 = '+' ∨ c2 = '-' then (1, r2) else (0, c2 :: r2)
        | [] => (0, [])
      if (decSpan q0.2).1 = 0 then 0 else 1 + q0.1 + (decSpan q0.2).1
    else 0
  | [] => 0

/-- The mantissa-and-exponent part of the float grammar, after an
optional sign of length `s` has been consumed: integer digits, an
optional decimal point with fractional digits, then the exponent; at
least one digit must appear in the mantissa or nothing is consumed. -/
def strtodAfterSign (s : Nat) (x : List Char) : Nat :=
  let p1 := decSpan x
  let p2 : Nat × List Char :=
    match p1.2 with
    | c :: r => if c = '.' then (1 + (decSpan r).1, (decSpan r).2) else (0, c :: r)
    | [] => (0, [])
  if p1.1 = 0 ∧ p2.1 ≤ 1 then 0
  else s + p1.1 + p2.1 + strtodExp p2.2

/-- Modelled from the spec: the floating-point sub-parser delegates to the
C library's `strtod`, which is not part of this repository.  Per the
spec's float grammar it consumes an optional sign, then integer and/or
fractional decimal digits (at least one digit somewhere, with an optional
decimal point), then an optional exponent (`e`/`E`, optional sign, at
least one digit; an exponent marker not followed by a digit is not
consumed).  Returns the number of characters consumed, `0` meaning no
conversion was performed. -/
def strtodLen (buf : List Char) : Nat :=
  match buf with
  | c :: r => if c = '+' ∨ c = '-' then strtodAfterSign 1 r else strtodAfterSign 0 (c :: r)
  | [] => strtodAfterSign 0 []

/-- The outcome of a `processCommand` call.  `invoked cb args` models the
success path: the response buffer is reset to the empty string and the
callback `cb` is called exactly once with the argument array `args` (and
the response buffer); its writes are outside the model.  `failed msg`
models `return false` with the error message `msg` written (via
`snprintf`, hence truncated to `MAX_RESPONSE_SIZE - 1` characters) into
the response buffer. -/
inductive PResult where
  | invoked (cb : Nat) (args : List Argument) : PResult
  | failed (msg : List Char) : PResult
  deriving Repr, DecidableEq

/-- `snprintf` truncation to the response buffer size. -/
def trunc (cfg : Config) (msg : List Char) : List Char :=
  msg.take (cfg.maxResponseSize - 1)

/-- `"parse error: unknown command name %s"`. -/
def errUnknown (cfg : Config) (name : List Char) : List Char :=
  trunc cfg (("parse error: unknown command name " ++ String.mk name).toList)

/-- `"parse error: missing whitespace before arg %d"` (1-indexed). -/
def errMissingWs (cfg : Config) (argNum : Nat) : List Char :=
  trunc cfg (("parse error: missing whitespace before arg " ++ Nat.repr argNum).toList)

/-- `"parse error: invalid <type> for arg %d"` (1-indexed). -/
def errInvalid (cfg : Config) (ty : String) (argNum : Nat) : List Char :=
  trunc cfg (("parse error: invalid " ++ ty ++ " for arg " ++ Nat.repr argNum).toList)

/-- `"parse error: invalid argtype %c for arg %d"` (defensive default of
the argument-type switch). -/
def errArgtype (cfg : Config) (t : Char) (argNum : Nat) : List Char :=
  trunc cfg (("parse error: invalid argtype " ++ String.mk [t] ++ " for arg "
    ++ Nat.repr argNum).toList)

/-- `"parse error: too many args (expected %d)"`. -/
def errTooMany (cfg : Config) (arity : Nat) : List Char :=
  trunc cfg (("parse error: too many args (expected " ++ Nat.repr arity ++ ")").toList)

/-- `true` when the character after a parsed numeric argument is a space
or the terminator (`command[bytesRead] != ' ' && command[bytesRead] !=
'\0'` is the C failure condition). -/
def sepOrEnd (l : List Char) : Bool :=
  match l with
  | [] => true
  | c :: _ => c == ' ' || c == Char.ofNat 0

/-- The per-argument loop of `processCommand` (first variant).  `ts` is
the remaining argument-type string, `i` the 0-based argument index,
`args` the current contents of the shared `commandArgs` array, `cmd` the
remaining input.  Returns the (possibly partially overwritten) argument
array, and either the error message or the remaining input after all
arguments.  Note that the `'d'`, `'u'` and `'i'` cases store into
`commandArgs[i]` before validating, exactly as the C code does. -/
def argLoop (cfg : Config) :
    List Char → Nat → List Argument → List Char →
      List Argument × (Except (List Char) (List Char))
  | [], _, args, cmd => (args, .ok cmd)
  | t :: ts, i, args, cmd =>
    if cmd.headD (Char.ofNat 0) ≠ ' ' then (args, .error (errMissingWs cfg (i + 1)))
    else
      let cmd1 := (cmd.drop 1).dropWhile (· == ' ')
      if t = 'd' then
        let n := strtodLen cmd1
        let args1 := args.set i (.dbl (cmd1.take n))
        if n = 0 ∨ ¬ sepOrEnd (cmd1.drop n) then (args1, .error (errInvalid cfg "double" (i + 1)))
        else argLoop cfg ts (i + 1) args1 (cmd1.drop n)
      else if t = 'u' then
        let r := strToUInt64 cmd1
        let args1 := args.set i (.u64 r.2)
        if r.1 = 0 ∨ ¬ sepOrEnd (cmd1.drop r.1) then
          (args1, .error (errInvalid cfg "uint64_t" (i + 1)))
        else argLoop cfg ts (i + 1) args1 (cmd1.drop r.1)
      else if t = 'i' then
        let r := strToInt64 cmd1
        let args1 := args.set i (.i64 r.2)
        if r.1 = 0 ∨ ¬ sepOrEnd (cmd1.drop r.1) then
          (args1, .error (errInvalid cfg "int64_t" (i + 1)))
        else argLoop cfg ts (i + 1) args1 (cmd1.drop r.1)
      else if t = 's' then
        match parseString1 cfg.maxCommandArgSize cmd1 with
        | none => (args, .error (errInvalid cfg "string" (i + 1)))
        | some (rc, out) =>
          if rc = 0 then (args, .error (errInvalid cfg "string" (i + 1)))
          else argLoop cfg ts (i + 1) (args.set i (.str out)) (cmd1.drop rc)
      else (args, .error (errArgtype cfg t (i + 1)))

/-- `processCommand(command, response)` (first variant): extract the
name, look it up, parse each argument per its type tag, skip trailing
spaces, require the end of the input, then reset the response and invoke
the callback.  Returns the updated processor state (the registry is never
written; only `commandArgs` is) and the call's outcome. -/
def processCommand (cfg : Config) (st : PState) (command : List Char) : PState × PResult :=
  let p := splitName cfg.maxCommandNameLength command
  match lookupCommand st.commands p.1 with
  | none => (st, .failed (errUnknown cfg p.1))
  | some c =>
    match argLoop cfg c.argTypes 0 st.commandArgs p.2 with
    | (args1, .error msg) => ({ st with commandArgs := args1 }, .failed msg)
    | (args1, .ok rem) =>
      let rem1 := rem.dropWhile (· == ' ')
      if rem1.headD (Char.ofNat 0) = Char.ofNat 0 then
        ({ st with commandArgs := args1 }, .invoked c.cb args1)
      else ({ st with commandArgs := args1 }, .failed (errTooMany cfg c.argTypes.length))

/-- Big-endian decimal digit characters of `n`, prepended to `acc`
(`fuel`-bounded division loop; `fuel ≥ n` suffices). -/
def decCharsGo : Nat → Nat → List Char → List Char
  | _, 0, acc => acc
  | 0, _ + 1, acc => acc
  | fuel + 1, n + 1, acc =>
    decCharsGo fuel ((n + 1) / 10) (Char.ofNat (48 + (n + 1) % 10) :: acc)

/-- The canonical decimal text of a natural number (`"0"` for zero, no
leading zeros otherwise). -/
def decChars (n : Nat) : List Char := if n = 0 then ['0'] else decCharsGo n n []

/-- The canonical decimal text of an integer: the digits of its absolute
value, preceded by `'-'` when negative. -/
def intChars (v : Int) : List Char :=
  if v < 0 then '-' :: decChars (-v).toNat else decChars v.toNat

/-- Decimal value of a digit-character string (Horner, left to right) —
used to state lemmas about the digit-accumulation loop. -/
def dval (l : List Char) : Int :=
  l.foldl (fun a c => a * 10 + ((c.toNat : Int) - 48)) 0

/-- A token is valid for argument-type tag `t` when the corresponding
sub-parser, run on the token alone, succeeds and consumes the whole
token; the result is the `Argument` value it stores. -/
def parseTok (asz : Nat) (t : Char) (tok : List Char) : Option Argument :=
  if t = 'd' then
    if strtodLen tok = tok.length ∧ tok.length ≠ 0 then some (.dbl tok) else none
  else if t = 'u' then
    let r := strToUInt64 tok
    if r.1 = tok.length ∧ tok.length ≠ 0 then some (.u64 r.2) else none
  else if t = 'i' then
    let r := strToInt64 tok
    if r.1 = tok.length ∧ tok.length ≠ 0 then some (.i64 r.2) else none
  else if t = 's' then
    match parseString1 asz tok with
    | some p => if p.1 = tok.length ∧ tok.length ≠ 0 then some (.str p.2) else none
    | none => none
  else none

/-- The argument portion of a well-formed command line: for each argument,
`m + 1` separator spaces (one or more) followed by its token. -/
def mkArgsText : List (Nat × List Char) → List Char
  | [] => []
  | p :: rest => List.replicate (p.1 + 1) ' ' ++ p.2 ++ mkArgsText rest

/-- A well-formed command line: name, separated argument tokens, then
`trail` trailing spaces. -/
def mkLine (name : List Char) (args : List (Nat × List Char)) (trail : Nat) : List Char :=
  name ++ mkArgsText args ++ List.replicate trail ' '

/-- Overwrite consecutive entries of the argument array starting at index
`i` with the given values (what the argument loop does on success). -/
def writeArgs (arr : List Argument) (i : Nat) : List Argument → List Argument
  | [] => arr
  | v :: vs => writeArgs (arr.set i v) (i + 1) vs

/-- Well-formedness of a stored command definition: name within the bound
and null-free, argument-type string within the bound, null-free and over
the four recognised tags, callback non-null. -/
def wfCommand (cfg : Config) (c : Command) : Prop :=
  c.name.length ≤ cfg.maxCommandNameLength ∧ Char.ofNat 0 ∉ c.name
    ∧ c.argTypes.length ≤ cfg.maxCommandArgs ∧ Char.ofNat 0 ∉ c.argTypes
    ∧ (∀ t ∈ c.argTypes, t = 'd' ∨ t = 'u' ∨ t = 'i' ∨ t = 's')
    ∧ c.cb ≠ 0

/-- The states a `CommandParser` instance can reach: the fresh instance,
closed under arbitrary `registerCommand` and `processCommand` calls.  The
`register` step takes null-free C strings as arguments, as every C caller
necessarily does. -/
inductive Reachable (cfg : Config) : PState → Prop where
  | init : Reachable cfg (initState cfg)
  | register (st : PState) (name argTypes : List Char) (cb : Nat)
      (hname : Char.ofNat 0 ∉ name) (hargs : Char.ofNat 0 ∉ argTypes)
      (h : Reachable cfg st) : Reachable cfg (registerCommand cfg st name argTypes cb).1
  | process (st : PState) (line : List Char) (h : Reachable cfg st) :
      Reachable cfg (processCommand cfg st line).1

/-- A decimal digit character, together with how `digitVal` decodes it:
the statement form used by the round-trip lemmas. -/
def isDigitCh (c : Char) : Prop :=
  digitVal 10 c = some ((c.toNat : Int) - 48) ∧ 48 ≤ c.toNat ∧ c.toNat ≤ 57

/-- The `i`-th character of the 22 hexadecimal digit characters accepted
by the `\xNN` escape (`0`-`9` for `i < 10`, `a`-`f` for `10 ≤ i < 16`,
`A`-`F` for `16 ≤ i < 22`). -/
def hexCharAt (i : Nat) : Char :=
  if i < 10 then Char.ofNat (48 + i)
  else if i < 16 then Char.ofNat (87 + i)
  else Char.ofNat (49 + i)

/-- The value of the `i`-th hexadecimal digit character. -/
def hexValAt (i : Nat) : Nat := if i < 16 then i else i - 6

end CommandParser

namespace CommandParser

/-! ## Theorems -/

/-- Every branch of `processCommand` leaves the registry untouched: only
the shared argument array (and the response) can be written. -/
theorem processCommand_registry_eq (cfg : Config) (st : PState) (line : List Char) :
    ((processCommand cfg st line).1).commands = st.commands := by
  unfold processCommand
  cases hlk : lookupCommand st.commands (splitName cfg.maxCommandNameLength line).1 with
  | none => simp [hlk]
  | some c =>
    simp only [hlk]
    rcases hal : argLoop cfg c.argTypes 0 st.commandArgs
        (splitName cfg.maxCommandNameLength line).2 with ⟨args1, r⟩
    cases r with
    | error msg => simp [hal]
    | ok rem =>
      simp only [hal]
      split <;> simp

set_option maxHeartbeats 4000000 in
/-- C1: the overflow guards of `strToInt` do reject the spec's examples
(`"99999999999999999999"` fails as both `int64_t` and `uint64_t`), but the
guard before the final addition compares the accumulated magnitude (which
is non-negative) against `min_value + digit` and therefore never fires for
a negative literal: `"-9223372036854775809"` (value `-2^63 - 1`, outside
the `int64_t` range) is reported as successfully parsed — 20 bytes read —
with the wrapped value `9223372036854775807`, and `processCommand` hands
that wrapped value to the handler. -/
theorem c1_overflow_detection_gap :
    strToInt64 "-9223372036854775809".toList = (20, 9223372036854775807)
    ∧ strToInt64 "99999999999999999999".toList = (0, 999999999999999999)
    ∧ strToUInt64 "99999999999999999999".toList = (0, 9999999999999999999)
    ∧ (processCommand defaultConfig ⟨[.uninit, .uninit, .uninit, .uninit], [⟨['f'], ['i'], 1⟩]⟩
        "f -9223372036854775809".toList).2
      = .invoked 1 [.i64 9223372036854775807, .uninit, .uninit, .uninit] := by
  decide

set_option maxHeartbeats 1000000 in
/-- C4 counterexample: the token `"+5"` does not parse as a `uint64_t`
(`strToInt` reports 0 bytes read) even though `"5"` parses to `5`; the
unsigned parser accepts no leading `'+'`. -/
theorem c4_plus_prefixed_token_fails :
    strToUInt64 ['+', '5'] = (0, 0) ∧ strToUInt64 ['5'] = (1, 5) := by decide

set_option maxHeartbeats 2000000 in
/-- C4 amended: in `strToInt` the sign branch requires `min_value < 0`,
so for the unsigned instantiation (`min_value = 0`) it is skipped
entirely: every token beginning with `'+'` or with `'-'` fails to parse
as a `uint64_t` (0 bytes read). -/
theorem c4_unsigned_rejects_any_sign :
    (∀ rest : List Char, strToUInt64 ('+' :: rest) = (0, 0))
    ∧ (∀ rest : List Char, strToUInt64 ('-' :: rest) = (0, 0)) := by
  constructor <;> intro rest <;> simp [strToUInt64, strToIntGen, accumDigits, digitVal]

set_option maxHeartbeats 4000000 in
/-- C5 counterexample: with the default bounds, after registering the
10-character (maximum-length) name `"abcdefghij"` with no arguments,
processing the 11-character name token `"abcdefghijk"` truncates it to
`"abcdefghij"`, the lookup then MATCHES the registered command, and the
call fails with `"parse error: too many args (expected 0)"` — not with
the unknown-command error the claim requires for every over-long name
token. -/
theorem c5_truncated_name_matches_registered :
    processCommand defaultConfig
        ⟨[.uninit, .uninit, .uninit, .uninit],
         [⟨['a', 'b', 'c', 'd', 'e', 'f', 'g', 'h', 'i', 'j'], [], 3⟩]⟩
        "abcdefghijk".toList
      = (⟨[.uninit, .uninit, .uninit, .uninit],
          [⟨['a', 'b', 'c', 'd', 'e', 'f', 'g', 'h', 'i', 'j'], [], 3⟩]⟩,
         .failed (errTooMany defaultConfig 0))
    ∧ errTooMany defaultConfig 0 ≠ errUnknown defaultConfig "abcdefghij".toList := by
  decide

set_option maxHeartbeats 2000000 in
/-- C10: the two-character token `""` (opening quote immediately followed
by the closing quote) parses successfully in both `parseString` variants,
consuming exactly 2 bytes and producing the empty string; and a full
`processCommand` call on `say ""` (with `say` registered as `"s"`)
succeeds with the empty string stored in the argument value at index
0. -/
theorem c10_empty_quoted_string :
    parseString1 32 ['\"', '\"'] = some (2, [])
    ∧ parseString2 32 ['\"', '\"'] = some (2, [])
    ∧ processCommand defaultConfig
        ⟨[.uninit, .uninit, .uninit, .uninit], [⟨['s', 'a', 'y'], ['s'], 5⟩]⟩
        "say \"\"".toList
      = (⟨[.str [], .uninit, .uninit, .uninit], [⟨['s', 'a', 'y'], ['s'], 5⟩]⟩,
         .invoked 5 [.str [], .uninit, .uninit, .uninit]) := by
  decide

set_option maxHeartbeats 2000000 in
/-- C6 counterexample: a failing `processCommand` call can overwrite the
shared argument-value array.  With `commandArgs[0]` holding `42` from an
earlier call, processing `"f x"` against `f` registered as `"i"` fails
(`invalid int64_t for arg 1`) yet leaves `commandArgs[0] = 0`, because
`strToInt` zeroes `*value` before scanning digits. -/
theorem c6_failing_call_overwrites_argument_array :
    processCommand defaultConfig
        ⟨[.i64 42, .uninit, .uninit, .uninit], [⟨['f'], ['i'], 1⟩]⟩ ['f', ' ', 'x']
      = (⟨[.i64 0, .uninit, .uninit, .uninit], [⟨['f'], ['i'], 1⟩]⟩,
         .failed (errInvalid defaultConfig "int64_t" 1))
    ∧ ([.i64 0, .uninit, .uninit, .uninit] : List Argument)
        ≠ [.i64 42, .uninit, .uninit, .uninit] := by
  decide

/-- C6 amended: every failing `processCommand` call invokes no handler
and leaves the registry unchanged; its only writes are the error message
(response buffer) and possibly entries of the shared argument-value
array, which can receive intermediate parse results. -/
theorem c6_failure_invokes_no_handler_and_preserves_registry
    (cfg : Config) (st : PState) (line msg : List Char)
    (h : (processCommand cfg st line).2 = .failed msg) :
    ((processCommand cfg st line).1).commands = st.commands
    ∧ ∀ cb args, (processCommand cfg st line).2 ≠ .invoked cb args := by
  refine ⟨processCommand_registry_eq cfg st line, ?_⟩
  intro cb args
  rw [h]
  exact fun hc => PResult.noConfusion hc

set_option maxHeartbeats 1000000 in
/-- Witness for the amended C6 theorem at a concrete failing call. -/
theorem c6_failure_frame_witness :
    ((processCommand defaultConfig (initState defaultConfig) ['f']).1).commands
        = (initState defaultConfig).commands
    ∧ ∀ cb args,
        (processCommand defaultConfig (initState defaultConfig) ['f']).2
          ≠ .invoked cb args :=
  c6_failure_invokes_no_handler_and_preserves_registry defaultConfig (initState defaultConfig)
    ['f'] (errUnknown defaultConfig ['f']) (by decide)

/-- The name-extraction loop on a name token longer than the bound `n`:
it copies exactly the first `n` bytes and leaves the rest of the token in
the input. -/
theorem splitName_overlong (tok rest : List Char) (n : Nat)
    (htok : ∀ c ∈ tok, c ≠ ' ' ∧ c ≠ Char.ofNat 0) (hn : n < tok.length) :
    splitName n (tok ++ rest) = (tok.take n, tok.drop n ++ rest) := by
  induction tok generalizing n with
  | nil => simp at hn
  | cons c tk ih =>
    cases n with
    | zero => simp [splitName]
    | succ m =>
      have hc := htok c (List.mem_cons_self c tk)
      have hrec := ih m (fun x hx => htok x (List.mem_cons_of_mem c hx)) (by simpa using hn)
      simp only [List.cons_append, splitName]
      rw [if_neg (by simp [hc.1, hc.2])]
      simp only [Nat.add_sub_cancel, List.append_eq]
      rw [hrec]
      simp

/-- C5 amended: for every input line whose command-name token (space-free,
null-free bytes) is longer than `MAX_COMMAND_NAME_LENGTH`, `processCommand`
uses only the first `MAX_COMMAND_NAME_LENGTH` bytes as the name; when no
registered command bears that truncated name, the lookup fails and the
call fails with the `"parse error: unknown command name %s"` error
embedding the truncated name — never with a distinct over-length error
kind.  (When a registered maximum-length command does bear the truncated
name the lookup matches instead; see the counterexample.) -/
theorem c5_overlong_name_unknown_command (cfg : Config) (st : PState) (tok rest : List Char)
    (htok : ∀ c ∈ tok, c ≠ ' ' ∧ c ≠ Char.ofNat 0)
    (hlong : cfg.maxCommandNameLength < tok.length)
    (hlk : lookupCommand st.commands (tok.take cfg.maxCommandNameLength) = none) :
    processCommand cfg st (tok ++ rest)
      = (st, .failed (errUnknown cfg (tok.take cfg.maxCommandNameLength))) := by
  unfold processCommand
  rw [splitName_overlong tok rest _ htok hlong]
  simp [hlk]

set_option maxHeartbeats 1000000 in
/-- Witness for the amended C5 theorem: the 11-byte name token
`abcdefghijk` against an empty registry yields the unknown-command error
embedding the 10-byte truncation. -/
theorem c5_overlong_name_witness :
    processCommand defaultConfig (initState defaultConfig)
        ("abcdefghijk".toList ++ [])
      = (initState defaultConfig,
         .failed (errUnknown defaultConfig ("abcdefghijk".toList.take 10))) :=
  c5_overlong_name_unknown_command defaultConfig (initState defaultConfig)
    "abcdefghijk".toList [] (by decide) (by decide) (by decide)

/-- Case analysis of `registerCommand`: either some constraint fails and
the call returns `(st, false)`, or every constraint holds and the call
appends exactly one command. -/
theorem registerCommand_cases (cfg : Config) (st : PState) (name argTypes : List Char)
    (cb : Nat) :
    (registerCommand cfg st name argTypes cb = (st, false)
      ∧ (st.commands.length = cfg.maxCommands ∨ cfg.maxCommandNameLength < name.length
        ∨ cfg.maxCommandArgs < argTypes.length ∨ cb = 0
        ∨ ∃ c ∈ argTypes, ¬(c = 'd' ∨ c = 'u' ∨ c = 'i' ∨ c = 's')))
    ∨ (registerCommand cfg st name argTypes cb
        = ({ st with commands := st.commands ++ [⟨name, argTypes, cb⟩] }, true)
      ∧ st.commands.length ≠ cfg.maxCommands ∧ name.length ≤ cfg.maxCommandNameLength
      ∧ argTypes.length ≤ cfg.maxCommandArgs ∧ cb ≠ 0
      ∧ ∀ c ∈ argTypes, c = 'd' ∨ c = 'u' ∨ c = 'i' ∨ c = 's') := by
  unfold registerCommand
  split_ifs with h1 h2 h3 h4 h5
  · exact Or.inl ⟨rfl, Or.inl h1⟩
  · exact Or.inl ⟨rfl, Or.inr (Or.inl h2)⟩
  · exact Or.inl ⟨rfl, Or.inr (Or.inr (Or.inl h3))⟩
  · exact Or.inl ⟨rfl, Or.inr (Or.inr (Or.inr (Or.inl h4)))⟩
  · refine Or.inr ⟨rfl, h1, le_of_not_gt h2, le_of_not_gt h3, h4, ?_⟩
    intro c hc
    have hb := List.all_eq_true.mp h5 c hc
    simp at hb
    tauto
  · refine Or.inl ⟨rfl, Or.inr (Or.inr (Or.inr (Or.inr ?_)))⟩
    rw [List.all_eq_true] at h5
    push_neg at h5
    obtain ⟨c, hc, hne⟩ := h5
    simp at hne
    exact ⟨c, hc, by tauto⟩

/-- C7: `registerCommand` is all-or-nothing.  Starting from any state
within capacity, either every registration constraint holds (registry not
at capacity, name and argument-type string within their bounds, non-null
callback, every type tag in `{d, u, i, s}`) and exactly one new command
is appended at the end with `true` returned, or some constraint fails and
the call returns `false` with the state — count and every stored
definition — exactly unchanged. -/
theorem c7_register_all_or_nothing (cfg : Config) (st : PState) (name argTypes : List Char)
    (cb : Nat) (hcap : st.commands.length ≤ cfg.maxCommands) :
    (st.commands.length < cfg.maxCommands ∧ name.length ≤ cfg.maxCommandNameLength
      ∧ argTypes.length ≤ cfg.maxCommandArgs ∧ cb ≠ 0
      ∧ (∀ c ∈ argTypes, c = 'd' ∨ c = 'u' ∨ c = 'i' ∨ c = 's')
      ∧ registerCommand cfg st name argTypes cb
          = ({ st with commands := st.commands ++ [⟨name, argTypes, cb⟩] }, true))
    ∨ ((st.commands.length = cfg.maxCommands ∨ cfg.maxCommandNameLength < name.length
        ∨ cfg.maxCommandArgs < argTypes.length ∨ cb = 0
        ∨ (∃ c ∈ argTypes, ¬(c = 'd' ∨ c = 'u' ∨ c = 'i' ∨ c = 's')))
      ∧ registerCommand cfg st name argTypes cb = (st, false)) := by
  rcases registerCommand_cases cfg st name argTypes cb with ⟨heq, hwhy⟩ | ⟨heq, h1, h2, h3, h4, h5⟩
  · exact Or.inr ⟨hwhy, heq⟩
  · exact Or.inl ⟨lt_of_le_of_ne hcap h1, h2, h3, h4, h5, heq⟩

set_option maxHeartbeats 1000000 in
/-- Witness for C7 at a concrete successful registration. -/
theorem c7_register_witness :
    (initState defaultConfig).commands.length < defaultConfig.maxCommands
      ∧ (['m'] : List Char).length ≤ defaultConfig.maxCommandNameLength
      ∧ (['i'] : List Char).length ≤ defaultConfig.maxCommandArgs ∧ (7 : Nat) ≠ 0
      ∧ registerCommand defaultConfig (initState defaultConfig) ['m'] ['i'] 7
          = ({ initState defaultConfig with
                commands := (initState defaultConfig).commands ++ [⟨['m'], ['i'], 7⟩] }, true) := by
  rcases c7_register_all_or_nothing defaultConfig (initState defaultConfig) ['m'] ['i'] 7
      (by decide) with h | h
  · exact ⟨h.1, h.2.1, h.2.2.1, h.2.2.2.1, h.2.2.2.2.2⟩
  · exact absurd h.2 (by decide)

/-- C9: registry well-formedness is an invariant of every sequence of
`registerCommand` and `processCommand` calls: the command count never
exceeds `MAX_COMMANDS`; every stored definition has a null-free name
within the name bound, a null-free argument-type string within the arity
bound over the tags `d`, `u`, `i`, `s`, and a non-null callback; and
`processCommand` never modifies the registry. -/
theorem c9_registry_invariant (cfg : Config) (st : PState) (h : Reachable cfg st) :
    st.commands.length ≤ cfg.maxCommands
    ∧ (∀ c ∈ st.commands, wfCommand cfg c)
    ∧ (∀ line, ((processCommand cfg st line).1).commands = st.commands) := by
  induction h with
  | init =>
    exact ⟨by simp [initState], by simp [initState],
      fun line => processCommand_registry_eq cfg _ line⟩
  | register st name argTypes cb hname hargs h ih =>
    refine ⟨?_, ?_, fun line => processCommand_registry_eq cfg _ line⟩ <;>
      rcases registerCommand_cases cfg st name argTypes cb with ⟨heq, hwhy⟩ |
        ⟨heq, h1, h2, h3, h4, h5⟩ <;> rw [heq]
    · exact ih.1
    · simp only [List.length_append, List.length_singleton]
      have := ih.1
      omega
    · exact ih.2.1
    · intro c hc
      rcases List.mem_append.mp hc with hold | hnew
      · exact ih.2.1 c hold
      · have hcnew : c = ⟨name, argTypes, cb⟩ := List.mem_singleton.mp hnew
        subst hcnew
        exact ⟨h2, hname, h3, hargs, h5, h4⟩
  | process st line h ih =>
    refine ⟨?_, ?_, fun l => processCommand_registry_eq cfg _ l⟩
    · rw [processCommand_registry_eq]; exact ih.1
    · rw [processCommand_registry_eq]; exact ih.2.1

set_option maxHeartbeats 1000000 in
/-- Witness for C9 at the concrete state reached by one registration. -/
theorem c9_registry_invariant_witness :
    ((registerCommand defaultConfig (initState defaultConfig) ['f'] ['i'] 1).1).commands.length
        ≤ defaultConfig.maxCommands
    ∧ (∀ c ∈ ((registerCommand defaultConfig (initState defaultConfig) ['f'] ['i'] 1).1).commands,
        wfCommand defaultConfig c)
    ∧ (∀ line, ((processCommand defaultConfig
          ((registerCommand defaultConfig (initState defaultConfig) ['f'] ['i'] 1).1) line).1).commands
        = ((registerCommand defaultConfig (initState defaultConfig) ['f'] ['i'] 1).1).commands) :=
  c9_registry_invariant defaultConfig _
    (Reachable.register (initState defaultConfig) ['f'] ['i'] 1 (by decide) (by decide)
      Reachable.init)

set_option maxRecDepth 4096 in
set_option maxHeartbeats 32000000 in
/-- C8: quoted-string escape decoding is exact and strictly validated, in
both `parseString` variants: `"\x41\x42\x43"` decodes to the three bytes
`ABC` (14 characters consumed, 3 bytes stored); `\n`, `\r`, `\t`, `\"`,
`\\` decode to their single-byte equivalents; `\xHH` with exactly two hex
digits — for every pair of hexadecimal digit characters, case-insensitive
— decodes to the single byte with that value; a backslash followed by any
other byte makes the string fail to parse; and a quoted string whose
closing quote is never found before the terminator fails. -/
theorem c8_escape_decoding :
    (parseString1 32 "\"\\x41\\x42\\x43\"".toList = some (14, ['A', 'B', 'C'])
      ∧ parseString2 32 "\"\\x41\\x42\\x43\"".toList = some (14, ['A', 'B', 'C']))
    ∧ (parseString1 32 "\"\\n\\r\\t\\\"\\\\\"".toList
          = some (12, ['\n', '\r', '\t', '\"', '\\'])
      ∧ parseString2 32 "\"\\n\\r\\t\\\"\\\\\"".toList
          = some (12, ['\n', '\r', '\t', '\"', '\\']))
    ∧ (∀ i < 22, ∀ j < 22,
        parseString1 32 ['\"', '\\', 'x', hexCharAt i, hexCharAt j, '\"']
          = some (6, [Char.ofNat (hexValAt i * 16 + hexValAt j)])
        ∧ parseString2 32 ['\"', '\\', 'x', hexCharAt i, hexCharAt j, '\"']
          = some (6, [Char.ofNat (hexValAt i * 16 + hexValAt j)]))
    ∧ (∀ n < 256, Char.ofNat n ∉ (['n', 'r', 't', '\"', '\\', 'x'] : List Char) →
        parseString1 32 ['\"', 'a', '\\', Char.ofNat n, 'b', '\"'] = none
        ∧ parseString2 32 ['\"', 'a', '\\', Char.ofNat n, 'b', '\"'] = none)
    ∧ (parseString1 32 "\"abc".toList = none ∧ parseString2 32 "\"abc".toList = none) := by
  refine ⟨by decide, by decide, by decide, by decide, by decide⟩

set_option maxHeartbeats 1000000 in
/-- Witness for the quantified parts of C8: the hex escape `\x4a` decodes
to byte `0x4a` and the unknown escape `\z` fails, obtained by applying
`c8_escape_decoding` at concrete indices. -/
theorem c8_escape_decoding_witness :
    (parseString1 32 ['\"', '\\', 'x', hexCharAt 4, hexCharAt 10, '\"']
        = some (6, [Char.ofNat (hexValAt 4 * 16 + hexValAt 10)])
      ∧ parseString2 32 ['\"', '\\', 'x', hexCharAt 4, hexCharAt 10, '\"']
        = some (6, [Char.ofNat (hexValAt 4 * 16 + hexValAt 10)]))
    ∧ (parseString1 32 ['\"', 'a', '\\', Char.ofNat 122, 'b', '\"'] = none
      ∧ parseString2 32 ['\"', 'a', '\\', Char.ofNat 122, 'b', '\"'] = none) :=
  ⟨c8_escape_decoding.2.2.1 4 (by decide) 10 (by decide),
   c8_escape_decoding.2.2.2.1 122 (by decide) (by decide)⟩

/-! ### Round-trip of canonical decimal text (C3) -/

/-- `wrap64` is the identity on the `int64_t` range. -/
theorem wrap64_eq_id (x : Int) (h1 : -(2 ^ 63) ≤ x) (h2 : x < 2 ^ 63) : wrap64 x = x := by
  unfold wrap64; omega

/-- `wrapU64` is the identity on the `uint64_t` range. -/
theorem wrapU64_id (x : Int) (h1 : 0 ≤ x) (h2 : x < 2 ^ 64) : wrapU64 x = x := by
  unfold wrapU64; omega

theorem dval_nil : dval [] = 0 := rfl

/-- Horner shift: folding from a non-zero accumulator. -/
theorem dval_shift (l : List Char) (a : Int) :
    l.foldl (fun a c => a * 10 + ((c.toNat : Int) - 48)) a = a * 10 ^ l.length + dval l := by
  induction l generalizing a with
  | nil => simp [dval]
  | cons c tl ih =>
    simp only [List.foldl_cons, dval, List.length_cons]
    rw [ih, ih (0 * 10 + ((c.toNat : Int) - 48))]
    ring

theorem dval_cons (c : Char) (l : List Char) :
    dval (c :: l) = ((c.toNat : Int) - 48) * 10 ^ l.length + dval l := by
  show List.foldl _ _ (c :: l) = _
  rw [List.foldl_cons, dval_shift]
  ring

theorem dval_append_singleton (l : List Char) (c : Char) :
    dval (l ++ [c]) = dval l * 10 + ((c.toNat : Int) - 48) := by
  show List.foldl _ _ (l ++ [c]) = _
  rw [List.foldl_append]
  rfl

theorem dval_nonneg (l : List Char) (h : ∀ c ∈ l, 48 ≤ c.toNat ∧ c.toNat ≤ 57) :
    0 ≤ dval l := by
  induction l with
  | nil => simp [dval]
  | cons c tl ih =>
    rw [dval_cons]
    have hc := h c (List.mem_cons_self c tl)
    have htl := ih (fun x hx => h x (List.mem_cons_of_mem c hx))
    have h0 : (0 : Int) ≤ ((c.toNat : Int) - 48) := by omega
    positivity

set_option maxHeartbeats 1000000 in
theorem isDigitCh_ofNat : ∀ r < 10, isDigitCh (Char.ofNat (48 + r))
    ∧ (Char.ofNat (48 + r)).toNat = 48 + r := by
  unfold isDigitCh
  decide

/-- The digit characters produced by `decCharsGo` are decimal digits and
decode back (via Horner evaluation) to the encoded number. -/
theorem decCharsGo_eq (n : Nat) : ∀ (fuel : Nat) (acc : List Char), n ≤ fuel →
    ∃ ds : List Char, decCharsGo fuel n acc = ds ++ acc
      ∧ (∀ c ∈ ds, isDigitCh c) ∧ dval ds = n ∧ (0 < n → ds ≠ []) := by
  induction n using Nat.strong_induction_on with
  | _ n ih =>
    intro fuel acc hfuel
    match n, fuel with
    | 0, fuel =>
      refine ⟨[], ?_, by simp, by simp [dval], by simp⟩
      cases fuel <;> rfl
    | (k + 1), (f + 1) =>
      have hdiv : (k + 1) / 10 < k + 1 := Nat.div_lt_self (Nat.succ_pos k) (by norm_num)
      have hdivf : (k + 1) / 10 ≤ f := by omega
      obtain ⟨ds', heq, hds', hval, hne⟩ :=
        ih ((k + 1) / 10) hdiv f (Char.ofNat (48 + (k + 1) % 10) :: acc) hdivf
      have hmod : (k + 1) % 10 < 10 := Nat.mod_lt _ (by norm_num)
      have hch := isDigitCh_ofNat ((k + 1) % 10) hmod
      refine ⟨ds' ++ [Char.ofNat (48 + (k + 1) % 10)], ?_, ?_, ?_, ?_⟩
      · show decCharsGo (f + 1) (k + 1) acc = _
        rw [decCharsGo, heq]
        simp
      · intro c hc
        rcases List.mem_append.mp hc with h1 | h2
        · exact hds' c h1
        · rw [List.mem_singleton.mp h2]; exact hch.1
      · rw [dval_append_singleton, hval, hch.2]
        push_cast
        omega
      · intro _
        simp
    | (k + 1), 0 => omega

/-- The canonical decimal text of `m` consists of digit characters, is
non-empty, and Horner-evaluates back to `m`. -/
theorem decChars_spec (m : Nat) :
    (∀ c ∈ decChars m, isDigitCh c) ∧ dval (decChars m) = m ∧ decChars m ≠ [] := by
  unfold decChars
  split
  case isTrue h =>
    subst h
    refine ⟨?_, by simp [dval], by simp⟩
    intro c hc
    rw [List.mem_singleton.mp hc]
    have h0 := isDigitCh_ofNat 0 (by norm_num)
    simpa using h0.1
  case isFalse h =>
    obtain ⟨ds, heq, hds, hval, hne⟩ := decCharsGo_eq m m [] le_rfl
    rw [heq]
    simp only [List.append_nil]
    exact ⟨hds, hval, hne (Nat.pos_of_ne_zero h)⟩

/-- Unfolding equation for one iteration of the digit loop. -/
theorem accumDigits_cons (wrap : Int → Int) (mn mx base : Int) (isNeg : Bool)
    (c : Char) (rest : List Char) (v : Int) (n : Nat) :
    accumDigits wrap mn mx base isNeg (c :: rest) v n
      = match digitVal base c with
        | none => (false, v, n)
        | some d =>
          if v < mn.tdiv base ∨ v > mx.tdiv base then (true, v, n)
          else
            if (if isNeg then wrap (v * base) < mn + d else wrap (v * base) > mx - d) then
              (true, wrap (v * base), n)
            else accumDigits wrap mn mx base isNeg rest (wrap (wrap (v * base) + d)) (n + 1) := by
  rfl

/-- The digit loop accumulates a decimal digit string exactly, for a
non-negative accumulation whose final value stays within `mx`: every
overflow guard passes and no wraparound occurs. -/
theorem accumDigits_pos (wrap : Int → Int) (mn mx : Int)
    (hw : ∀ x, 0 ≤ x → x ≤ mx → wrap x = x)
    (hmn10 : mn.tdiv 10 ≤ 0)
    (htdiv : 10 * mx.tdiv 10 ≤ mx ∧ mx ≤ 10 * mx.tdiv 10 + 9) :
    ∀ (D : List Char) (p : Int) (n : Nat),
      (∀ c ∈ D, isDigitCh c) → 0 ≤ p → p * 10 ^ D.length + dval D ≤ mx →
      accumDigits wrap mn mx 10 false D p n
        = (false, p * 10 ^ D.length + dval D, n + D.length) := by
  intro D
  induction D with
  | nil =>
    intro p n _ hp hle
    simp [accumDigits, dval]
  | cons c D' ih =>
    intro p n hd hp hle
    obtain ⟨hcv, hc1, hc2⟩ := hd c (List.mem_cons_self c D')
    have hd' : ∀ x ∈ D', isDigitCh x := fun x hx => hd x (List.mem_cons_of_mem c hx)
    have hdnn : 0 ≤ dval D' := dval_nonneg D' (fun x hx => ((hd' x hx).2))
    have hpow : (1 : Int) ≤ 10 ^ D'.length := one_le_pow₀ (by norm_num)
    have hle' : p * (10 ^ D'.length * 10) + (((c.toNat : Int) - 48) * 10 ^ D'.length + dval D')
        ≤ mx := by
      rw [dval_cons] at hle
      simpa [pow_succ, mul_assoc, mul_comm] using hle
    have hkey : (p * 10 + ((c.toNat : Int) - 48)) * 10 ^ D'.length + dval D' ≤ mx := by
      nlinarith
    have hsd : 0 ≤ p * 10 + ((c.toNat : Int) - 48) := by omega
    have hsmall : p * 10 + ((c.toNat : Int) - 48) ≤ mx := by
      nlinarith
    have hp10 : p * 10 ≤ mx := by omega
    have hnotguard : ¬(p < mn.tdiv 10 ∨ p > mx.tdiv 10) := by
      push_neg
      refine ⟨by omega, ?_⟩
      nlinarith
    rw [accumDigits_cons, hcv]
    simp only
    rw [if_neg hnotguard]
    rw [hw (p * 10) (by omega) hp10]
    rw [if_neg (by simp only [Bool.false_eq_true, if_false]; omega)]
    rw [hw _ hsd hsmall]
    rw [ih (p * 10 + ((c.toNat : Int) - 48)) (n + 1) hd' hsd hkey]
    have hv : (p * 10 + ((c.toNat : Int) - 48)) * 10 ^ D'.length + dval D'
        = p * 10 ^ (c :: D').length + dval (c :: D') := by
      rw [dval_cons]
      simp only [List.length_cons, pow_succ]
      ring
    rw [hv]
    simp only [List.length_cons]
    refine congrArg _ (congrArg _ ?_)
    omega

theorem tdiv_min64 : Int.tdiv INT64_MIN 10 = -922337203685477580 := by decide

theorem tdiv_max64 : Int.tdiv INT64_MAX 10 = 922337203685477580 := by decide

/-- The digit loop with `isNegative = true` on the `int64_t`
instantiation: the magnitude accumulates exactly, the final value being
`wrap64` of the magnitude (which wraps precisely when the magnitude is
`2 ^ 63`, the case of `LLONG_MIN`). -/
theorem accumDigits_neg64 :
    ∀ (D : List Char) (p : Int) (n : Nat),
      (∀ c ∈ D, isDigitCh c) → 0 ≤ p → p < 2 ^ 63 →
      p * 10 ^ D.length + dval D ≤ 2 ^ 63 →
      accumDigits wrap64 INT64_MIN INT64_MAX 10 true D p n
        = (false, wrap64 (p * 10 ^ D.length + dval D), n + D.length) := by
  intro D
  induction D with
  | nil =>
    intro p n _ hp hplt hle
    simp only [accumDigits, dval_nil, List.length_nil, pow_zero, mul_one, add_zero, Nat.add_zero]
    rw [wrap64_eq_id p (by omega) hplt]
  | cons c D' ih =>
    intro p n hd hp hplt hle
    obtain ⟨hcv, hc1, hc2⟩ := hd c (List.mem_cons_self c D')
    have hd' : ∀ x ∈ D', isDigitCh x := fun x hx => hd x (List.mem_cons_of_mem c hx)
    have hdnn : 0 ≤ dval D' := dval_nonneg D' (fun x hx => ((hd' x hx).2))
    have hpow : (1 : Int) ≤ 10 ^ D'.length := one_le_pow₀ (by norm_num)
    have hle' : p * (10 ^ D'.length * 10) + (((c.toNat : Int) - 48) * 10 ^ D'.length + dval D')
        ≤ 2 ^ 63 := by
      rw [dval_cons] at hle
      simpa [pow_succ, mul_assoc, mul_comm] using hle
    have hkey : (p * 10 + ((c.toNat : Int) - 48)) * 10 ^ D'.length + dval D' ≤ 2 ^ 63 := by
      nlinarith
    have hsd : 0 ≤ p * 10 + ((c.toNat : Int) - 48) := by omega
    have hsmall : p * 10 + ((c.toNat : Int) - 48) ≤ 2 ^ 63 := by
      nlinarith
    have hp10lt : p * 10 < 2 ^ 63 := by omega
    have hnotguard : ¬(p < Int.tdiv INT64_MIN 10 ∨ p > Int.tdiv INT64_MAX 10) := by
      rw [tdiv_min64, tdiv_max64]
      push_neg
      constructor
      · omega
      · nlinarith
    rw [accumDigits_cons, hcv]
    simp only
    rw [if_neg hnotguard]
    rw [wrap64_eq_id (p * 10) (by omega) hp10lt]
    rw [if_neg (by
      simp only [if_true]
      show ¬(p * 10 < INT64_MIN + ((c.toNat : Int) - 48))
      unfold INT64_MIN
      omega)]
    cases D' with
    | nil =>
      rw [show accumDigits wrap64 INT64_MIN INT64_MAX 10 true []
            (wrap64 (p * 10 + ((c.toNat : Int) - 48))) (n + 1)
          = (false, wrap64 (p * 10 + ((c.toNat : Int) - 48)), n + 1) from rfl]
      rw [dval_cons]
      simp [dval_nil]
    | cons c2 D2 =>
      have hpow10 : (10 : Int) ≤ 10 ^ (c2 :: D2).length := by
        have h1 : (10 : Int) ^ 1 ≤ 10 ^ (c2 :: D2).length :=
          pow_le_pow_right₀ (by norm_num) (by simp)
        simpa using h1
      have hslt : p * 10 + ((c.toNat : Int) - 48) < 2 ^ 63 := by
        have hd2nn : 0 ≤ dval (c2 :: D2) :=
          dval_nonneg _ (fun x hx => ((hd' x hx).2))
        nlinarith
      rw [wrap64_eq_id _ (by omega) hslt]
      rw [ih (p * 10 + ((c.toNat : Int) - 48)) (n + 1) hd' hsd hslt hkey]
      have hv : (p * 10 + ((c.toNat : Int) - 48)) * 10 ^ (c2 :: D2).length + dval (c2 :: D2)
          = p * 10 ^ (c :: c2 :: D2).length + dval (c :: c2 :: D2) := by
        rw [dval_cons c (c2 :: D2)]
        simp only [List.length_cons, pow_succ]
        ring
      rw [hv]
      simp only [List.length_cons]
      refine congrArg _ (congrArg _ ?_)
      omega

/-- On a buffer consisting only of decimal digit characters, `strToInt`
parses no sign and no base marker (base 10), runs the digit loop on the
whole buffer, and returns its value with every byte consumed. -/
theorem strToIntGen_all_digits (wrap : Int → Int) (mn mx : Int) (c : Char) (D' : List Char)
    (hd : ∀ x ∈ c :: D', isDigitCh x) (v : Int)
    (hacc : accumDigits wrap mn mx 10 false (c :: D') 0 0 = (false, v, (c :: D').length)) :
    strToIntGen wrap mn mx (c :: D') = ((c :: D').length, v) := by
  obtain ⟨-, hc1, hc2⟩ := hd c (List.mem_cons_self c D')
  have hplus : (c == '+') = false := by
    rw [beq_eq_false_iff_ne]
    intro h
    subst h
    exact absurd hc1 (by decide)
  have hminus : (c == '-') = false := by
    rw [beq_eq_false_iff_ne]
    intro h
    subst h
    exact absurd hc1 (by decide)
  have hd1 : ∀ ch : Char, ((c :: D').drop 1).headD (Char.ofNat 0) = ch → 98 ≤ ch.toNat →
      False := by
    intro ch hch hge
    cases D' with
    | nil =>
      simp at hch
      subst hch
      simp at hge
    | cons c2 D2 =>
      simp at hch
      obtain ⟨-, h21, h22⟩ := hd c2 (by simp)
      subst hch
      omega
  have hb : (((c :: D').drop 1).headD (Char.ofNat 0) == 'b') = false := by
    rw [beq_eq_false_iff_ne]
    intro h
    exact hd1 'b' h (by decide)
  have ho : (((c :: D').drop 1).headD (Char.ofNat 0) == 'o') = false := by
    rw [beq_eq_false_iff_ne]
    intro h
    exact hd1 'o' h (by decide)
  have hx : (((c :: D').drop 1).headD (Char.ofNat 0) == 'x') = false := by
    rw [beq_eq_false_iff_ne]
    intro h
    exact hd1 'x' h (by decide)
  unfold strToIntGen
  simp only [List.headD_cons, hplus, hminus, Bool.or_false, Bool.and_false, Bool.false_eq_true,
    if_false, hb, ho, hx, beq_self_eq_true, if_true]
  rw [hacc]
  simp only [Bool.false_eq_true, if_false]
  rw [if_neg (by simp)]
  simp

/-- On `'-'` followed by decimal digit characters, a signed `strToInt`
instantiation parses the sign, runs the digit loop with `isNegative` set,
and negates (with wraparound) the accumulated magnitude. -/
theorem strToIntGen_neg_digits (wrap : Int → Int) (mn mx : Int) (hmn : mn < 0)
    (c : Char) (D' : List Char)
    (hd : ∀ x ∈ c :: D', isDigitCh x) (v : Int)
    (hacc : accumDigits wrap mn mx 10 true (c :: D') 0 0 = (false, v, (c :: D').length)) :
    strToIntGen wrap mn mx ('-' :: c :: D') = (1 + (c :: D').length, wrap (-v)) := by
  have hd1 : ∀ ch : Char, ((c :: D').drop 1).headD (Char.ofNat 0) = ch → 98 ≤ ch.toNat →
      False := by
    intro ch hch hge
    cases D' with
    | nil =>
      simp at hch
      subst hch
      simp at hge
    | cons c2 D2 =>
      simp at hch
      obtain ⟨-, h21, h22⟩ := hd c2 (by simp)
      subst hch
      omega
  have hb : (D'.headD (Char.ofNat 0) == 'b') = false := by
    rw [beq_eq_false_iff_ne]
    intro h
    exact hd1 'b' (by simpa using h) (by decide)
  have ho : (D'.headD (Char.ofNat 0) == 'o') = false := by
    rw [beq_eq_false_iff_ne]
    intro h
    exact hd1 'o' (by simpa using h) (by decide)
  have hx : (D'.headD (Char.ofNat 0) == 'x') = false := by
    rw [beq_eq_false_iff_ne]
    intro h
    exact hd1 'x' (by simpa using h) (by decide)
  unfold strToIntGen
  simp only [List.headD_cons, List.drop_succ_cons, List.drop_zero, decide_eq_true_eq, hmn,
    decide_True, Bool.true_and, beq_self_eq_true, Bool.or_true, Bool.and_true, if_true,
    hb, ho, hx, Bool.and_false, Bool.false_eq_true, if_false]
  rw [hacc]
  simp only []
  rw [if_neg (by simp)]

/-- Negating an already-wrapped magnitude in `[0, 2 ^ 63]` and wrapping
again yields exactly the negation (`LLONG_MIN` round-trips through the
double wraparound). -/
theorem wrap64_neg_wrap64 (m : Int) (h1 : 0 ≤ m) (h2 : m ≤ 2 ^ 63) :
    wrap64 (-(wrap64 m)) = -m := by
  unfold wrap64
  omega

/-- C3: round-trip for integers.  For every `int64_t` value `v`
(including `LLONG_MIN = -2 ^ 63`) and every `uint64_t` value, parsing the
canonical decimal text of `v` (its digits, preceded by `'-'` when `v` is
negative) with the integer parser of the corresponding type succeeds —
consuming the whole text — and yields exactly `v`. -/
theorem c3_integer_roundtrip :
    (∀ v : Int, INT64_MIN ≤ v → v ≤ INT64_MAX →
      strToInt64 (intChars v) = ((intChars v).length, v))
    ∧ (∀ v : Int, 0 ≤ v → v ≤ UINT64_MAX →
      strToUInt64 (intChars v) = ((intChars v).length, v)) := by
  constructor
  · intro v hlo hhi
    by_cases hneg : v < 0
    · have hich : intChars v = '-' :: decChars (-v).toNat := by
        unfold intChars
        rw [if_pos hneg]
      obtain ⟨hdig, hval, hne⟩ := decChars_spec (-v).toNat
      have hm : (((-v).toNat : Nat) : Int) = -v := Int.toNat_of_nonneg (by omega)
      have hmle : (((-v).toNat : Nat) : Int) ≤ 2 ^ 63 := by
        rw [hm]
        unfold INT64_MIN at hlo
        omega
      obtain ⟨c, D', hD⟩ := List.exists_cons_of_ne_nil hne
      rw [hich, hD]
      rw [hD] at hdig hval
      have hacc := accumDigits_neg64 (c :: D') 0 0 hdig le_rfl (by norm_num)
        (by rw [zero_mul, zero_add, hval]; exact hmle)
      rw [zero_mul, zero_add, Nat.zero_add, hval] at hacc
      unfold strToInt64
      rw [strToIntGen_neg_digits wrap64 INT64_MIN INT64_MAX (by decide) c D' hdig _ hacc]
      rw [wrap64_neg_wrap64 _ (by omega) (by rw [hm]; unfold INT64_MIN at hlo; omega)]
      rw [hm]
      simp [List.length_cons]
      omega
    · push_neg at hneg
      have hich : intChars v = decChars v.toNat := by
        unfold intChars
        rw [if_neg (by omega)]
      obtain ⟨hdig, hval, hne⟩ := decChars_spec v.toNat
      have hm : ((v.toNat : Nat) : Int) = v := Int.toNat_of_nonneg hneg
      obtain ⟨c, D', hD⟩ := List.exists_cons_of_ne_nil hne
      rw [hich, hD]
      rw [hD] at hdig hval
      have hacc := accumDigits_pos wrap64 INT64_MIN INT64_MAX
        (fun x hx1 hx2 => wrap64_eq_id x (by omega) (by unfold INT64_MAX at hx2; omega))
        (by decide) (by constructor <;> decide) (c :: D') 0 0 hdig le_rfl
        (by rw [zero_mul, zero_add, hval, hm]; exact hhi)
      rw [zero_mul, zero_add, Nat.zero_add, hval, hm] at hacc
      unfold strToInt64
      exact strToIntGen_all_digits wrap64 INT64_MIN INT64_MAX c D' hdig v hacc
  · intro v hlo hhi
    have hich : intChars v = decChars v.toNat := by
      unfold intChars
      rw [if_neg (by omega)]
    obtain ⟨hdig, hval, hne⟩ := decChars_spec v.toNat
    have hm : ((v.toNat : Nat) : Int) = v := Int.toNat_of_nonneg hlo
    obtain ⟨c, D', hD⟩ := List.exists_cons_of_ne_nil hne
    rw [hich, hD]
    rw [hD] at hdig hval
    have hacc := accumDigits_pos wrapU64 0 UINT64_MAX
      (fun x hx1 hx2 => wrapU64_id x hx1 (by unfold UINT64_MAX at hx2; omega))
      (by decide) (by constructor <;> decide) (c :: D') 0 0 hdig le_rfl
      (by rw [zero_mul, zero_add, hval, hm]; exact hhi)
    rw [zero_mul, zero_add, Nat.zero_add, hval, hm] at hacc
    unfold strToUInt64
    exact strToIntGen_all_digits wrapU64 0 UINT64_MAX c D' hdig v hacc

set_option maxHeartbeats 4000000 in
/-- Witness for C3 at the two extreme values: `LLONG_MIN` and
`ULLONG_MAX` round-trip through their canonical decimal text. -/
theorem c3_integer_roundtrip_witness :
    strToInt64 (intChars (-(2 ^ 63))) = ((intChars (-(2 ^ 63))).length, -(2 ^ 63))
    ∧ strToUInt64 (intChars (2 ^ 64 - 1)) = ((intChars (2 ^ 64 - 1)).length, 2 ^ 64 - 1) :=
  ⟨c3_integer_roundtrip.1 (-(2 ^ 63)) (by decide) (by decide),
   c3_integer_roundtrip.2 (2 ^ 64 - 1) (by decide) (by decide)⟩

/-! ### Locality lemmas for the sub-parsers (C2) -/

/-- A space is a digit in no base. -/
theorem digitVal_space (base : Int) : digitVal base ' ' = none := by
  unfold digitVal
  rw [if_neg (by rintro ⟨-, h, -⟩; exact absurd h (by decide))]
  rw [if_neg (by rintro ⟨-, h, -⟩; exact absurd h (by decide))]
  rw [if_neg (by rintro ⟨-, h, -⟩; exact absurd h (by decide))]
  rw [if_neg (by rintro ⟨-, h, -⟩; exact absurd h (by decide))]
  rw [if_neg (by rintro ⟨-, h, -⟩; exact absurd h (by decide))]

theorem accumDigits_append (wrap : Int → Int) (mn mx base : Int) (isNeg : Bool)
    (l2 : List Char) (h2 : digitVal base (l2.headD (Char.ofNat 0)) = none) :
    ∀ (l1 : List Char) (v : Int) (n : Nat),
      accumDigits wrap mn mx base isNeg (l1 ++ l2) v n
        = accumDigits wrap mn mx base isNeg l1 v n := by
  intro l1
  induction l1 with
  | nil =>
    intro v n
    simp only [List.nil_append]
    cases l2 with
    | nil => rfl
    | cons c r =>
      simp only [List.headD_cons] at h2
      rw [accumDigits_cons, h2]
      rfl
  | cons c r ih =>
    intro v n
    rw [List.cons_append, accumDigits_cons, accumDigits_cons]
    cases hdv : digitVal base c with
    | none => rfl
    | some d =>
      simp only
      split
      · rfl
      · split <;> split <;> first | rfl | exact ih _ _

end CommandParser

namespace CommandParser

/-- Appending `' ' :: rest` after a non-empty token does not change what
`strToInt` parses: the space stops both the base-marker scan and the
digit loop exactly where the terminator did. -/
theorem strToIntGen_append_sep (w : Int → Int) (mn mx : Int) (tok rest : List Char)
    (hne : tok ≠ []) :
    strToIntGen w mn mx (tok ++ ' ' :: rest) = strToIntGen w mn mx tok := by
  have hsp : ∀ b : Int, digitVal b ((' ' :: rest).headD (Char.ofNat 0)) = none := by
    intro b
    simpa using digitVal_space b
  have hacc : ∀ (b : Int) (neg : Bool) (l1 : List Char),
      accumDigits w mn mx b neg (l1 ++ ' ' :: rest) 0 0 = accumDigits w mn mx b neg l1 0 0 :=
    fun b neg l1 => accumDigits_append w mn mx b neg (' ' :: rest) (hsp b) l1 0 0
  obtain ⟨a, t, rfl⟩ := List.exists_cons_of_ne_nil hne
  unfold strToIntGen
  simp only [List.cons_append, List.headD_cons]
  by_cases hS : (decide (mn < 0) && (a == '+' || a == '-')) = true
  · simp only [hS, if_true, List.drop_succ_cons, List.drop_zero]
    cases t with
    | nil =>
      simp only [List.nil_append, List.headD_cons, List.headD_nil, List.drop_nil,
        List.drop_succ_cons, List.drop_zero,
        show ((' ' : Char) == '0') = false from rfl,
        show ((Char.ofNat 0 : Char) == '0') = false from rfl,
        Bool.false_and, Bool.false_eq_true, if_false,
        show ((10 : Int) == 10) = true from rfl, if_true]
      rw [show (' ' :: rest) = ([] ++ ' ' :: rest) from rfl, hacc 10 _ []]
    | cons c t1 =>
      cases t1 with
      | nil =>
        simp only [List.cons_append, List.nil_append, List.headD_cons, List.drop_succ_cons,
          List.drop_zero, List.headD_nil, List.drop_nil,
          show ((' ' : Char) == 'b') = false from rfl,
          show ((' ' : Char) == 'o') = false from rfl,
          show ((' ' : Char) == 'x') = false from rfl,
          show ((Char.ofNat 0 : Char) == 'b') = false from rfl,
          show ((Char.ofNat 0 : Char) == 'o') = false from rfl,
          show ((Char.ofNat 0 : Char) == 'x') = false from rfl,
          Bool.and_false, Bool.false_eq_true, if_false,
          show ((10 : Int) == 10) = true from rfl, if_true]
        rw [show (c :: ' ' :: rest) = ([c] ++ ' ' :: rest) from rfl, hacc 10 _ [c]]
      | cons c2 t2 =>
        simp only [List.cons_append, List.headD_cons, List.drop_succ_cons, List.drop_zero]
        by_cases h1 : (c == '0' && c2 == 'b') = true
        · simp only [h1, if_true, show ((2 : Int) == 10) = false from rfl,
            Bool.false_eq_true, if_false]
          rw [show (t2 ++ ' ' :: rest) = (t2 ++ ' ' :: rest) from rfl, hacc 2 _ t2]
        · simp only [h1, Bool.false_eq_true, if_false]
          by_cases h2 : (c == '0' && c2 == 'o') = true
          · simp only [h2, if_true, show ((8 : Int) == 10) = false from rfl,
              Bool.false_eq_true, if_false]
            rw [hacc 8 _ t2]
          · simp only [h2, Bool.false_eq_true, if_false]
            by_cases h3 : (c == '0' && c2 == 'x') = true
            · simp only [h3, if_true, show ((16 : Int) == 10) = false from rfl,
                Bool.false_eq_true, if_false]
              rw [hacc 16 _ t2]
            · simp only [h3, Bool.false_eq_true, if_false,
                show ((10 : Int) == 10) = true from rfl, if_true]
              rw [show (c :: c2 :: (t2 ++ ' ' :: rest)) = ((c :: c2 :: t2) ++ ' ' :: rest)
                  from rfl,
                hacc 10 _ (c :: c2 :: t2)]
  · simp only [Bool.not_eq_true] at hS
    simp only [hS, Bool.false_eq_true, if_false]
    cases t with
    | nil =>
      simp only [List.nil_append, List.headD_cons, List.headD_nil, List.drop_succ_cons,
        List.drop_zero, List.drop_nil,
        show ((' ' : Char) == 'b') = false from rfl,
        show ((' ' : Char) == 'o') = false from rfl,
        show ((' ' : Char) == 'x') = false from rfl,
        show ((Char.ofNat 0 : Char) == 'b') = false from rfl,
        show ((Char.ofNat 0 : Char) == 'o') = false from rfl,
        show ((Char.ofNat 0 : Char) == 'x') = false from rfl,
        Bool.and_false, Bool.false_eq_true, if_false,
        show ((10 : Int) == 10) = true from rfl, if_true]
      rw [show (a :: ' ' :: rest) = ([a] ++ ' ' :: rest) from rfl, hacc 10 _ [a]]
    | cons c2 t2 =>
      simp only [List.cons_append, List.headD_cons, List.drop_succ_cons, List.drop_zero]
      by_cases h1 : (a == '0' && c2 == 'b') = true
      · simp only [h1, if_true, show ((2 : Int) == 10) = false from rfl,
          Bool.false_eq_true, if_false]
        rw [hacc 2 _ t2]
      · simp only [h1, Bool.false_eq_true, if_false]
        by_cases h2 : (a == '0' && c2 == 'o') = true
        · simp only [h2, if_true, show ((8 : Int) == 10) = false from rfl,
            Bool.false_eq_true, if_false]
          rw [hacc 8 _ t2]
        · simp only [h2, Bool.false_eq_true, if_false]
          by_cases h3 : (a == '0' && c2 == 'x') = true
          · simp only [h3, if_true, show ((16 : Int) == 10) = false from rfl,
              Bool.false_eq_true, if_false]
            rw [hacc 16 _ t2]
          · simp only [h3, Bool.false_eq_true, if_false,
              show ((10 : Int) == 10) = true from rfl, if_true]
            rw [show (a :: c2 :: (t2 ++ ' ' :: rest)) = ((a :: c2 :: t2) ++ ' ' :: rest)
                from rfl,
              hacc 10 _ (a :: c2 :: t2)]

theorem decSpan_append_sep (rest : List Char) :
    ∀ l : List Char, decSpan (l ++ ' ' :: rest)
      = ((decSpan l).1, (decSpan l).2 ++ ' ' :: rest) := by
  intro l
  induction l with
  | nil =>
    simp only [List.nil_append, decSpan]
    rw [if_neg (by decide)]
  | cons c r ih =>
    simp only [List.cons_append, decSpan]
    by_cases hc : isDec c = true
    · simp only [hc, if_true, List.append_eq, ih]
    · simp only [hc, Bool.false_eq_true, if_false, List.append_eq, List.cons_append]

theorem strtodExp_append_sep (y rest : List Char) :
    strtodExp (y ++ ' ' :: rest) = strtodExp y := by
  cases y with
  | nil => simp [strtodExp]
  | cons c r =>
    simp only [List.cons_append, strtodExp]
    by_cases hce : c = 'e' ∨ c = 'E'
    · rw [if_pos hce, if_pos hce]
      cases r with
      | nil =>
        simp only [List.nil_append]
        rfl
      | cons c2 r2 =>
        simp only [List.cons_append]
        by_cases hs2 : c2 = '+' ∨ c2 = '-'
        · rw [if_pos hs2, if_pos hs2]
          simp only [decSpan_append_sep]
        · rw [if_neg hs2, if_neg hs2]
          simp only [show (c2 :: (r2 ++ ' ' :: rest)) = ((c2 :: r2) ++ ' ' :: rest) from rfl,
            decSpan_append_sep]
    · rw [if_neg hce, if_neg hce]

theorem strtodAfterSign_append_sep (s : Nat) (x rest : List Char) :
    strtodAfterSign s (x ++ ' ' :: rest) = strtodAfterSign s x := by
  unfold strtodAfterSign
  rw [decSpan_append_sep]
  rcases hP : decSpan x with ⟨n1, R1⟩
  simp only
  cases R1 with
  | nil =>
    simp only [List.nil_append]
    rw [if_neg (show ¬(' ' = '.') from by decide)]
    simp only
    split
    · rfl
    · rw [show strtodExp (' ' :: rest) = strtodExp ([] ++ ' ' :: rest) from rfl,
        strtodExp_append_sep]
  | cons c r =>
    simp only [List.cons_append]
    by_cases hdot : c = '.'
    · rw [if_pos hdot, if_pos hdot, decSpan_append_sep]
      simp only
      split
      · rfl
      · rw [strtodExp_append_sep]
    · rw [if_neg hdot, if_neg hdot]
      simp only
      split
      · rfl
      · rw [show (c :: (r ++ ' ' :: rest)) = ((c :: r) ++ ' ' :: rest) from rfl,
          strtodExp_append_sep]

theorem strtodLen_append_sep (tok rest : List Char) (hne : tok ≠ []) :
    strtodLen (tok ++ ' ' :: rest) = strtodLen tok := by
  obtain ⟨a, t, rfl⟩ := List.exists_cons_of_ne_nil hne
  simp only [List.cons_append, strtodLen]
  by_cases hsign : a = '+' ∨ a = '-'
  · rw [if_pos hsign, if_pos hsign, strtodAfterSign_append_sep]
  · rw [if_neg hsign, if_neg hsign,
      show (a :: (t ++ ' ' :: rest)) = ((a :: t) ++ ' ' :: rest) from rfl,
      strtodAfterSign_append_sep]

end CommandParser

namespace CommandParser

theorem drop_sub_cons1 (x : Char) (l : List Char) (rc r : Nat) (h : rc + 1 ≤ r) :
    (x :: l).drop (r - rc) = l.drop (r - (rc + 1)) := by
  rw [show r - rc = (r - (rc + 1)) + 1 from by omega]
  rfl

theorem drop_sub_cons2 (x y : Char) (l : List Char) (rc r : Nat) (h : rc + 2 ≤ r) :
    (x :: y :: l).drop (r - rc) = l.drop (r - (rc + 2)) := by
  rw [show r - rc = (r - (rc + 2)) + 2 from by omega]
  rfl

theorem drop_sub_cons4 (x y z w : Char) (l : List Char) (rc r : Nat) (h : rc + 4 ≤ r) :
    (x :: y :: z :: w :: l).drop (r - rc) = l.drop (r - (rc + 4)) := by
  rw [show r - rc = (r - (rc + 4)) + 4 from by omega]
  rfl

set_option maxHeartbeats 2000000 in
theorem psLoop_consumed (asz : Nat) (q : Bool) :
    ∀ (l : List Char) (rc i : Nat) (out : List Char),
      ∀ (o : List Char) (r i' : Nat) (rem : List Char),
      psLoop asz q l rc i out = some (o, r, i', rem) →
      rc ≤ r ∧ r - rc ≤ l.length ∧ l.drop (r - rc) = rem := by
  intro l rc i out
  induction l, rc, i, out using psLoop.induct asz q
  all_goals intro o r i' rem h
  all_goals unfold psLoop at h
  all_goals simp only [*, if_pos, if_neg, if_true, if_false, ite_true, ite_false,
    Option.some.injEq, Prod.mk.injEq, reduceIte] at h
  -- case1-3: immediate exits; case4,11,12,13: h is False; recursive cases use ih
  case case1 =>
    obtain ⟨h1, h2, h3, h4⟩ := h
    subst h2
    simp [h4.symm]
  case case2 =>
    obtain ⟨h1, h2, h3, h4⟩ := h
    subst h2
    simp [h4.symm]
  case case3 =>
    obtain ⟨h1, h2, h3, h4⟩ := h
    subst h2
    simp [h4.symm]
  case case5 =>
    rename_i ih
    obtain ⟨h1, h2, h3⟩ := ih _ _ _ _ h
    refine ⟨by omega, by simp only [List.length_cons]; omega, ?_⟩
    rw [drop_sub_cons2 _ _ _ _ _ h1]
    exact h3
  case case6 =>
    rename_i ih
    obtain ⟨h1, h2, h3⟩ := ih _ _ _ _ h
    refine ⟨by omega, by simp only [List.length_cons]; omega, ?_⟩
    rw [drop_sub_cons2 _ _ _ _ _ h1]
    exact h3
  case case7 =>
    rename_i ih
    obtain ⟨h1, h2, h3⟩ := ih _ _ _ _ h
    refine ⟨by omega, by simp only [List.length_cons]; omega, ?_⟩
    rw [drop_sub_cons2 _ _ _ _ _ h1]
    exact h3
  case case8 =>
    rename_i ih
    obtain ⟨h1, h2, h3⟩ := ih _ _ _ _ h
    refine ⟨by omega, by simp only [List.length_cons]; omega, ?_⟩
    rw [drop_sub_cons2 _ _ _ _ _ h1]
    exact h3
  case case9 =>
    rename_i ih
    rw [if_neg (show ¬(if q = true then False else ('\\' : Char) = ' ') from by
      cases q <;> simp)] at h
    obtain ⟨h1, h2, h3⟩ := ih _ _ _ _ h
    refine ⟨by omega, by simp only [List.length_cons]; omega, ?_⟩
    rw [drop_sub_cons2 _ _ _ _ _ h1]
    exact h3
  case case10 =>
    rename_i ih
    obtain ⟨h1, h2, h3⟩ := ih _ _ _ _ h
    refine ⟨by omega, by simp only [List.length_cons]; omega, ?_⟩
    rw [drop_sub_cons4 _ _ _ _ _ _ _ h1]
    exact h3
  case case14 =>
    rename_i ih
    obtain ⟨h1, h2, h3⟩ := ih _ _ _ _ h
    refine ⟨by omega, by simp only [List.length_cons]; omega, ?_⟩
    rw [drop_sub_cons1 _ _ _ _ h1]
    exact h3
  all_goals exact Option.noConfusion h

/-- Splitting lemma for the copy loop: running on `l1 ++ l2` either stops
inside `l1` (with `l2` still appended to the remainder) or consumes all
of `l1` and continues into `l2` from the accumulated position. -/
theorem psLoop_append (asz : Nat) (q : Bool) (l2 : List Char) :
    ∀ (l1 : List Char) (rc i : Nat) (out : List Char),
      ∀ (o : List Char) (r i' : Nat) (rem : List Char),
      psLoop asz q l1 rc i out = some (o, r, i', rem) →
      psLoop asz q (l1 ++ l2) rc i out
        = if rem = [] then psLoop asz q l2 r i' o else some (o, r, i', rem ++ l2) := by
  intro l1 rc i out
  induction l1, rc, i, out using psLoop.induct asz q
  all_goals intro o r i' rem h
  all_goals unfold psLoop at h
  all_goals simp only [*, if_pos, if_neg, if_true, if_false, ite_true, ite_false,
    Option.some.injEq, Prod.mk.injEq, reduceIte] at h
  case case1 =>
    obtain ⟨h1, h2, h3, h4⟩ := h
    subst h1; subst h2; subst h3; subst h4
    simp
  case case2 =>
    rename_i hx
    obtain ⟨h1, h2, h3, h4⟩ := h
    subst h1; subst h2; subst h3
    rw [← h4]
    simp only [List.cons_append]
    unfold psLoop
    rw [if_pos hx]
    rw [if_neg (by simp)]
  case case3 =>
    rename_i hx hbr
    obtain ⟨h1, h2, h3, h4⟩ := h
    subst h1; subst h2; subst h3
    rw [← h4]
    simp only [List.cons_append]
    unfold psLoop
    rw [if_neg hx, if_pos hbr]
    rw [if_neg (by simp)]
  case case5 =>
    rename_i ih
    rw [List.cons_append, List.cons_append]
    conv_lhs => unfold psLoop
    simp only [*, if_pos, if_neg, if_true, if_false, ite_true, ite_false, reduceIte]
    exact ih _ _ _ _ h
  case case6 =>
    rename_i ih
    rw [List.cons_append, List.cons_append]
    conv_lhs => unfold psLoop
    simp only [*, if_pos, if_neg, if_true, if_false, ite_true, ite_false, reduceIte]
    exact ih _ _ _ _ h
  case case7 =>
    rename_i ih
    rw [List.cons_append, List.cons_append]
    conv_lhs => unfold psLoop
    simp only [*, if_pos, if_neg, if_true, if_false, ite_true, ite_false, reduceIte]
    exact ih _ _ _ _ h
  case case8 =>
    rename_i ih
    rw [List.cons_append, List.cons_append]
    conv_lhs => unfold psLoop
    simp only [*, if_pos, if_neg, if_true, if_false, ite_true, ite_false, reduceIte]
    exact ih _ _ _ _ h
  case case9 =>
    rename_i ih
    rw [if_neg (show ¬(if q = true then False else ('\\' : Char) = ' ') from by
      cases q <;> simp)] at h
    rw [List.cons_append, List.cons_append]
    conv_lhs => unfold psLoop
    simp only [*, if_pos, if_neg, if_true, if_false, ite_true, ite_false, reduceIte]
    rw [if_neg (show ¬(if q = true then False else ('\\' : Char) = ' ') from by
      cases q <;> simp)]
    exact ih _ _ _ _ h
  case case10 =>
    rename_i ih
    rw [List.cons_append, List.cons_append, List.cons_append, List.cons_append]
    conv_lhs => unfold psLoop
    simp only [*, if_pos, if_neg, if_true, if_false, ite_true, ite_false, reduceIte]
    exact ih _ _ _ _ h
  case case14 =>
    rename_i ih
    rw [List.cons_append]
    conv_lhs => unfold psLoop
    simp only [*, if_pos, if_neg, if_true, if_false, ite_true, ite_false, reduceIte]
    exact ih _ _ _ _ h
  all_goals exact Option.noConfusion h

/-- The loop exits immediately (without consuming) at a space in
unquoted mode. -/
theorem psLoop_space_unquoted (asz : Nat) (r i : Nat) (o rest : List Char) :
    psLoop asz false (' ' :: rest) r i o = some (o, r, i, ' ' :: rest) := by
  unfold psLoop
  split
  · rfl
  · rw [if_pos (by simp)]

/-- Appending `' ' :: rest` after a token that `parseString` fully
consumed does not change the parse: a quoted token ends at its closing
quote, an unquoted one stops at the appended space. -/
theorem parseString1_append_sep (asz : Nat) (tok rest : List Char) (n : Nat) (out : List Char)
    (h : parseString1 asz tok = some (n, out)) (hne : n ≠ 0) (hlen : n = tok.length) :
    parseString1 asz (tok ++ ' ' :: rest) = some (n, out) := by
  have htne : tok ≠ [] := by
    intro he
    rw [he] at hlen
    simp at hlen
    omega
  obtain ⟨a, t, rfl⟩ := List.exists_cons_of_ne_nil htne
  unfold parseString1 at h ⊢
  simp only [List.cons_append, List.headD_cons] at h ⊢
  by_cases hq : a = '"'
  · simp only [hq, if_pos rfl, if_true, List.drop_succ_cons, List.drop_zero,
      decide_True] at h ⊢
    split at h
    · exact Option.noConfusion h
    · rename_i res o rc fst remaining heq
      split at h
      · rename_i tail
        simp only [Option.some.injEq, Prod.mk.injEq] at h
        rw [psLoop_append asz true (' ' :: rest) t 1 0 [] o rc fst ('"' :: tail) heq]
        rw [if_neg (by simp)]
        simp only [List.cons_append]
        rw [h.1, h.2]
      · exact Option.noConfusion h
  · have hbq : (decide (a = '"')) = false := decide_eq_false hq
    simp only [if_neg hq, hbq, List.drop_zero] at h ⊢
    split at h
    · exact Option.noConfusion h
    · rename_i res o rc fst remaining heq
      simp only [Option.some.injEq, Prod.mk.injEq] at h
      have hcons := psLoop_consumed asz false (a :: t) 0 0 [] o rc fst remaining heq
      have hrem : remaining = [] := by
        rw [← hcons.2.2]
        rw [← h.1] at hlen
        rw [hlen]
        simp
      subst hrem
      rw [← List.cons_append]
      rw [psLoop_append asz false (' ' :: rest) (a :: t) 0 0 [] o rc fst [] heq]
      rw [if_pos rfl]
      rw [psLoop_space_unquoted]
      rw [h.1]
      show some (n, o.reverse) = some (n, out)
      rw [h.2]

end CommandParser

namespace CommandParser

theorem strtodLen_space (r : List Char) : strtodLen (' ' :: r) = 0 := by
  simp [strtodLen, strtodAfterSign, decSpan, isDec]

theorem strToIntGen_space (w : Int → Int) (mn mx : Int) (r : List Char) :
    strToIntGen w mn mx (' ' :: r) = (0, 0) := by
  simp [strToIntGen, accumDigits, digitVal]

theorem parseString1_space (asz : Nat) (r : List Char) :
    parseString1 asz (' ' :: r) = some (0, []) := by
  have h1 : ¬ ((' ':Char) = '"') := by decide
  unfold parseString1
  simp only [List.headD_cons, if_neg h1, List.drop_zero]
  rw [show (decide ((' ':Char) = '"')) = false from rfl]
  rw [psLoop_space_unquoted]
  rfl

theorem parseTok_tok_shape (asz : Nat) (t : Char) (tok : List Char) (v : Argument)
    (h : parseTok asz t tok = some v) :
    tok ≠ [] ∧ tok.headD (Char.ofNat 0) ≠ ' ' := by
  have hne : tok.length ≠ 0 ∧ tok.headD (Char.ofNat 0) ≠ ' ' := by
    unfold parseTok at h
    by_cases td : t = 'd'
    · rw [if_pos td] at h
      split at h
      · rename_i hc
        refine ⟨hc.2, ?_⟩
        intro hsp
        have htokne : tok ≠ [] := by
          intro he; rw [he] at hc; exact hc.2 rfl
        obtain ⟨a, tk, rfl⟩ := List.exists_cons_of_ne_nil htokne
        simp only [List.headD_cons] at hsp
        rw [hsp] at hc
        rw [strtodLen_space] at hc
        exact hc.2 hc.1.symm
      · exact Option.noConfusion h
    · rw [if_neg td] at h
      by_cases tu : t = 'u'
      · rw [if_pos tu] at h
        have h2 : (if (strToUInt64 tok).1 = tok.length ∧ tok.length ≠ 0
            then some (Argument.u64 (strToUInt64 tok).2) else none) = some v := h
        split at h2
        · rename_i hc
          refine ⟨hc.2, ?_⟩
          intro hsp
          have htokne : tok ≠ [] := by
            intro he; rw [he] at hc; exact hc.2 rfl
          obtain ⟨a, tk, rfl⟩ := List.exists_cons_of_ne_nil htokne
          simp only [List.headD_cons] at hsp
          rw [hsp] at hc
          rw [show strToUInt64 (' ' :: tk) = (0, 0) from strToIntGen_space _ _ _ tk] at hc
          exact hc.2 hc.1.symm
        · exact Option.noConfusion h2
      · rw [if_neg tu] at h
        by_cases ti : t = 'i'
        · rw [if_pos ti] at h
          have h2 : (if (strToInt64 tok).1 = tok.length ∧ tok.length ≠ 0
              then some (Argument.i64 (strToInt64 tok).2) else none) = some v := h
          split at h2
          · rename_i hc
            refine ⟨hc.2, ?_⟩
            intro hsp
            have htokne : tok ≠ [] := by
              intro he; rw [he] at hc; exact hc.2 rfl
            obtain ⟨a, tk, rfl⟩ := List.exists_cons_of_ne_nil htokne
            simp only [List.headD_cons] at hsp
            rw [hsp] at hc
            rw [show strToInt64 (' ' :: tk) = (0, 0) from strToIntGen_space _ _ _ tk] at hc
            exact hc.2 hc.1.symm
          · exact Option.noConfusion h2
        · rw [if_neg ti] at h
          by_cases hs : t = 's'
          · rw [if_pos hs] at h
            split at h
            · rename_i p hps
              split at h
              · rename_i hc
                refine ⟨hc.2, ?_⟩
                intro hsp
                have htokne : tok ≠ [] := by
                  intro he; rw [he] at hc; exact hc.2 rfl
                obtain ⟨a, tk, rfl⟩ := List.exists_cons_of_ne_nil htokne
                simp only [List.headD_cons] at hsp
                rw [hsp] at hps
                rw [parseString1_space] at hps
                have hp1 : p.1 = 0 := by
                  have := hps.symm
                  injection this with h3
                  rw [h3]
                rw [hp1] at hc
                exact hc.2 hc.1.symm
              · exact Option.noConfusion h
            · exact Option.noConfusion h
          · rw [if_neg hs] at h
            exact Option.noConfusion h
  exact ⟨fun he => hne.1 (by rw [he]; rfl), hne.2⟩

theorem dropWhile_space_replicate (m : Nat) (l : List Char) :
    (List.replicate m ' ' ++ l).dropWhile (· == ' ') = l.dropWhile (· == ' ') := by
  induction m with
  | zero => rfl
  | succ k ih =>
    rw [List.replicate_succ, List.cons_append, List.dropWhile_cons, if_pos (by decide)]
    exact ih

theorem dropWhile_head_ne (a : Char) (l : List Char) (h : a ≠ ' ') :
    (a :: l).dropWhile (· == ' ') = a :: l := by
  rw [List.dropWhile_cons, if_neg (by simpa using h)]

theorem mkArgsText_tail_shape (ps : List (Nat × List Char)) (trail : Nat) :
    mkArgsText ps ++ List.replicate trail ' ' = []
      ∨ ∃ R, mkArgsText ps ++ List.replicate trail ' ' = ' ' :: R := by
  match ps with
  | p :: rest =>
    right
    refine ⟨List.replicate p.1 ' ' ++ p.2 ++ mkArgsText rest ++ List.replicate trail ' ', ?_⟩
    simp [mkArgsText, List.replicate_succ]
  | [] =>
    match trail with
    | 0 => left; rfl
    | n + 1 =>
      right
      exact ⟨List.replicate n ' ', by simp [mkArgsText, List.replicate_succ]⟩

theorem writeArgs_cons (arr : List Argument) (i : Nat) (v : Argument) (vs : List Argument) :
    writeArgs arr i (v :: vs) = writeArgs (arr.set i v) (i + 1) vs := rfl

theorem writeArgs_getD_lt (d : Argument) (vals : List Argument) :
    ∀ (arr : List Argument) (i j : Nat), j < i →
      (writeArgs arr i vals).getD j d = arr.getD j d := by
  induction vals with
  | nil => intro arr i j _; rfl
  | cons v vs ih =>
    intro arr i j hj
    rw [writeArgs_cons, ih (arr.set i v) (i + 1) j (by omega)]
    rw [List.getD_eq_getElem?_getD, List.getD_eq_getElem?_getD,
      List.getElem?_set_ne (by omega)]

theorem writeArgs_getD (d : Argument) (vals : List Argument) :
    ∀ (arr : List Argument) (i k : Nat), k < vals.length → i + vals.length ≤ arr.length →
      (writeArgs arr i vals).getD (i + k) d = vals.getD k d := by
  induction vals with
  | nil => intro arr i k hk _; exact absurd hk (by simp)
  | cons v vs ih =>
    intro arr i k hk harr
    match k with
    | 0 =>
      rw [writeArgs_cons, writeArgs_getD_lt d vs (arr.set i v) (i + 1) (i + 0) (by omega)]
      rw [List.getD_eq_getElem?_getD]
      have hi : i < (arr.set i v).length := by
        rw [List.length_set]
        simp only [List.length_cons] at harr
        omega
      rw [show i + 0 = i from rfl, List.getElem?_set_self (by rw [List.length_set] at hi; exact hi)]
      rfl
    | k' + 1 =>
      rw [writeArgs_cons, show i + (k' + 1) = (i + 1) + k' from by omega]
      rw [ih (arr.set i v) (i + 1) k' (by simpa using hk)
        (by rw [List.length_set]; simp only [List.length_cons] at harr; omega)]
      rfl

theorem sepOrEnd_nil : sepOrEnd [] = true := rfl

theorem sepOrEnd_space (R : List Char) : sepOrEnd (' ' :: R) = true := rfl

theorem splitName_exact (name : List Char)
    (hch : ∀ c ∈ name, c ≠ ' ' ∧ c ≠ Char.ofNat 0) :
    ∀ (n : Nat) (rest : List Char), name.length ≤ n →
      (rest = [] ∨ rest.headD (Char.ofNat 0) = ' ') →
      splitName n (name ++ rest) = (name, rest) := by
  induction name with
  | nil =>
    intro n rest _ hrest
    rcases hrest with h | h
    · rw [h]; rfl
    · cases rest with
      | nil => rfl
      | cons c R =>
        simp only [List.headD_cons] at h
        simp only [List.nil_append, splitName]
        rw [if_pos (Or.inr (Or.inl h))]
  | cons a nm ih =>
    intro n rest hlen hrest
    have hn : n ≠ 0 := by
      intro h0; rw [h0] at hlen; simp at hlen
    have ha := hch a (by simp)
    simp only [List.cons_append, splitName]
    rw [if_neg (by push_neg; exact ⟨hn, ha.1, ha.2⟩)]
    simp only [List.append_eq]
    rw [ih (fun c hc => hch c (by simp [hc])) (n - 1) rest
      (by simp only [List.length_cons] at hlen; omega) hrest]

theorem strtodLen_append_shape (tok R : List Char) (hne : tok ≠ [])
    (hR : R = [] ∨ ∃ E, R = ' ' :: E) : strtodLen (tok ++ R) = strtodLen tok := by
  rcases hR with rfl | ⟨E, rfl⟩
  · rw [List.append_nil]
  · exact strtodLen_append_sep tok E hne

theorem strToIntGen_append_shape (w : Int → Int) (mn mx : Int) (tok R : List Char)
    (hne : tok ≠ []) (hR : R = [] ∨ ∃ E, R = ' ' :: E) :
    strToIntGen w mn mx (tok ++ R) = strToIntGen w mn mx tok := by
  rcases hR with rfl | ⟨E, rfl⟩
  · rw [List.append_nil]
  · exact strToIntGen_append_sep w mn mx tok E hne

theorem parseString1_append_shape (asz : Nat) (tok R : List Char) (n : Nat) (out : List Char)
    (h : parseString1 asz tok = some (n, out)) (hne : n ≠ 0) (hlen : n = tok.length)
    (hR : R = [] ∨ ∃ E, R = ' ' :: E) : parseString1 asz (tok ++ R) = some (n, out) := by
  rcases hR with rfl | ⟨E, rfl⟩
  · rw [List.append_nil]; exact h
  · exact parseString1_append_sep asz tok E n out h hne hlen

theorem sepOrEnd_shape (R : List Char) (hR : R = [] ∨ ∃ E, R = ' ' :: E) :
    sepOrEnd R = true := by
  rcases hR with rfl | ⟨E, rfl⟩
  · rfl
  · rfl

set_option maxRecDepth 4096 in
/-- One iteration of the argument loop on a well-formed tail: one or more
separator spaces, a token valid for the declared type, then the rest
(which is empty or starts with a space).  The token parses, its value is
stored at index `i`, and the loop continues on the rest. -/
theorem argLoop_step (cfg : Config) (t : Char) (ts' : List Char) (i : Nat)
    (args : List Argument) (m : Nat) (tok R : List Char) (v : Argument)
    (h1 : parseTok cfg.maxCommandArgSize t tok = some v)
    (hR : R = [] ∨ ∃ E, R = ' ' :: E) :
    argLoop cfg (t :: ts') i args (' ' :: (List.replicate m ' ' ++ (tok ++ R)))
      = argLoop cfg ts' (i + 1) (args.set i v) R := by
  have hd := parseTok_tok_shape cfg.maxCommandArgSize t tok v h1
  obtain ⟨a, tk, rfl⟩ := List.exists_cons_of_ne_nil hd.1
  simp only [List.headD_cons] at hd
  conv_lhs => unfold argLoop
  rw [if_neg (by simp)]
  simp only [List.drop_succ_cons, List.drop_zero]
  rw [dropWhile_space_replicate m (a :: tk ++ R), List.cons_append,
    dropWhile_head_ne a (tk ++ R) hd.2]
  rw [← List.cons_append]
  unfold parseTok at h1
  by_cases td : t = 'd'
  · subst td
    rw [if_pos rfl] at h1 ⊢
    split at h1
    · rename_i hc
      have hv : v = Argument.dbl (a :: tk) := by injection h1 with h1; exact h1.symm
      have hn : strtodLen ((a :: tk) ++ R) = (a :: tk).length :=
        (strtodLen_append_shape (a :: tk) R (by simp) hR).trans hc.1
      rw [if_neg (by
        rw [hn, List.drop_left, sepOrEnd_shape R hR]
        simp only [not_or, not_not]
        exact ⟨hc.2, by decide⟩)]
      rw [hn, List.take_left, List.drop_left, hv]
    · exact Option.noConfusion h1
  · rw [if_neg td] at h1 ⊢
    by_cases tu : t = 'u'
    · subst tu
      rw [if_pos rfl] at h1 ⊢
      have h2 : (if (strToUInt64 (a :: tk)).1 = (a :: tk).length ∧ (a :: tk).length ≠ 0
          then some (Argument.u64 (strToUInt64 (a :: tk)).2) else none) = some v := h1
      split at h2
      · rename_i hc
        have hv : v = Argument.u64 (strToUInt64 (a :: tk)).2 := by
          injection h2 with h2; exact h2.symm
        have hn : strToUInt64 ((a :: tk) ++ R) = strToUInt64 (a :: tk) := by
          unfold strToUInt64
          exact strToIntGen_append_shape wrapU64 0 UINT64_MAX (a :: tk) R (by simp) hR
        rw [if_neg (by
          rw [hn, hc.1, List.drop_left, sepOrEnd_shape R hR]
          simp only [not_or, not_not]
          exact ⟨hc.2, by decide⟩)]
        rw [hn, hc.1, List.drop_left, hv]
      · exact Option.noConfusion h2
    · rw [if_neg tu] at h1 ⊢
      by_cases ti : t = 'i'
      · subst ti
        rw [if_pos rfl] at h1 ⊢
        have h2 : (if (strToInt64 (a :: tk)).1 = (a :: tk).length ∧ (a :: tk).length ≠ 0
            then some (Argument.i64 (strToInt64 (a :: tk)).2) else none) = some v := h1
        split at h2
        · rename_i hc
          have hv : v = Argument.i64 (strToInt64 (a :: tk)).2 := by
            injection h2 with h2; exact h2.symm
          have hn : strToInt64 ((a :: tk) ++ R) = strToInt64 (a :: tk) := by
            unfold strToInt64
            exact strToIntGen_append_shape wrap64 INT64_MIN INT64_MAX (a :: tk) R (by simp) hR
          rw [if_neg (by
            rw [hn, hc.1, List.drop_left, sepOrEnd_shape R hR]
            simp only [not_or, not_not]
            exact ⟨hc.2, by decide⟩)]
          rw [hn, hc.1, List.drop_left, hv]
        · exact Option.noConfusion h2
      · rw [if_neg ti] at h1 ⊢
        by_cases hs : t = 's'
        · subst hs
          rw [if_pos rfl] at h1 ⊢
          split at h1
          · rename_i p hps
            split at h1
            · rename_i hc
              have hv : v = Argument.str p.2 := by injection h1 with h1; exact h1.symm
              have hps2 : parseString1 cfg.maxCommandArgSize (a :: tk) = some (p.1, p.2) := by
                rw [hps]
              have hn : parseString1 cfg.maxCommandArgSize ((a :: tk) ++ R)
                  = some (p.1, p.2) :=
                parseString1_append_shape cfg.maxCommandArgSize (a :: tk) R p.1 p.2 hps2
                  (by rw [hc.1]; exact hc.2) hc.1 hR
              rw [hn]
              simp only
              rw [if_neg (by rw [hc.1]; exact hc.2)]
              rw [hc.1, List.drop_left, hv]
            · exact Option.noConfusion h1
          · exact Option.noConfusion h1
        · rw [if_neg hs] at h1
          exact Option.noConfusion h1

/-- The argument loop on a fully well-formed argument list: every declared
type tag is matched by a valid token, so the loop stores each parsed value
at its index and returns the trailing spaces as the remaining input. -/
theorem argLoop_valid (cfg : Config) (trail : Nat) :
    ∀ (ps : List (Nat × List Char)) (ts : List Char) (vals : List Argument)
      (i : Nat) (args : List Argument),
      List.Forall₂ (fun (tv : Char × (Nat × List Char)) (v : Argument) =>
        parseTok cfg.maxCommandArgSize tv.1 tv.2.2 = some v) (ts.zip ps) vals →
      ts.length = ps.length →
      argLoop cfg ts i args (mkArgsText ps ++ List.replicate trail ' ')
        = (writeArgs args i vals, Except.ok (List.replicate trail ' ')) := by
  intro ps
  induction ps with
  | nil =>
    intro ts vals i args hv hlen
    have hts : ts = [] := List.length_eq_zero.mp (by simpa using hlen)
    subst hts
    cases hv
    rfl
  | cons p ps' ih =>
    intro ts vals i args hv hlen
    obtain ⟨t, ts', rfl⟩ : ∃ t ts', ts = t :: ts' := by
      cases ts with
      | nil => simp at hlen
      | cons t ts' => exact ⟨t, ts', rfl⟩
    rw [List.zip_cons_cons] at hv
    cases hv with
    | cons h1 h2 =>
      rename_i v vs
      have hline : mkArgsText (p :: ps') ++ List.replicate trail ' '
          = ' ' :: (List.replicate p.1 ' '
              ++ (p.2 ++ (mkArgsText ps' ++ List.replicate trail ' '))) := by
        simp [mkArgsText, List.replicate_succ, List.append_assoc]
      rw [hline]
      rw [argLoop_step cfg t ts' i args p.1 p.2
        (mkArgsText ps' ++ List.replicate trail ' ') v h1
        (mkArgsText_tail_shape ps' trail)]
      rw [ih ts' vs (i + 1) (args.set i v) h2 (by simpa using hlen)]
      rw [writeArgs_cons]

theorem dropWhile_space_replicate_nil (m : Nat) :
    (List.replicate m ' ').dropWhile (· == ' ') = [] := by
  rw [← List.append_nil (List.replicate m ' '), dropWhile_space_replicate]
  rfl

/-- C2: a valid line (registered name, then for each declared type one or
more separator spaces and a valid token, then trailing spaces) invokes the
looked-up command's handler exactly once with the parsed values written at
indices 0..arity-1 of the argument array. -/
theorem c2_valid_line_invokes_handler (cfg : Config) (st : PState)
    (name ts : List Char) (cb : Nat)
    (ps : List (Nat × List Char)) (vals : List Argument) (trail : Nat)
    (hname_len : name.length ≤ cfg.maxCommandNameLength)
    (hname_ch : ∀ c ∈ name, c ≠ ' ' ∧ c ≠ Char.ofNat 0)
    (hlk : lookupCommand st.commands name = some ⟨name, ts, cb⟩)
    (hlen : ts.length = ps.length)
    (hv : List.Forall₂ (fun (tv : Char × (Nat × List Char)) (v : Argument) =>
      parseTok cfg.maxCommandArgSize tv.1 tv.2.2 = some v) (ts.zip ps) vals)
    (harr : vals.length ≤ st.commandArgs.length) :
    processCommand cfg st (mkLine name ps trail)
      = ({ st with commandArgs := writeArgs st.commandArgs 0 vals },
         PResult.invoked cb (writeArgs st.commandArgs 0 vals))
    ∧ ∀ k, k < vals.length →
        (writeArgs st.commandArgs 0 vals).getD k Argument.uninit
          = vals.getD k Argument.uninit := by
  constructor
  · have hrest := mkArgsText_tail_shape ps trail
    have hsplit : splitName cfg.maxCommandNameLength
        (name ++ (mkArgsText ps ++ List.replicate trail ' '))
        = (name, mkArgsText ps ++ List.replicate trail ' ') :=
      splitName_exact name hname_ch cfg.maxCommandNameLength _ hname_len (by
        rcases hrest with h | ⟨R, h⟩
        · exact Or.inl h
        · right; rw [h]; rfl)
    unfold processCommand
    rw [show mkLine name ps trail
      = (name ++ mkArgsText ps) ++ List.replicate trail ' ' from rfl]
    rw [List.append_assoc, hsplit]
    simp only [hlk]
    rw [argLoop_valid cfg trail ps ts vals 0 st.commandArgs hv hlen]
    simp only [dropWhile_space_replicate_nil, List.headD_nil]
    simp
  · intro k hk
    have := writeArgs_getD Argument.uninit vals st.commandArgs 0 k hk (by omega)
    simpa using this

theorem c2_valid_line_witness :
    mkLine ['m','o','v','e'] [(0, ['4','5']), (0, ['-','2','3'])] 0 = "move 45 -23".toList
    ∧ processCommand defaultConfig
        ⟨List.replicate 4 Argument.uninit, [⟨['m','o','v','e'], ['i','i'], 7⟩]⟩
        (mkLine ['m','o','v','e'] [(0, ['4','5']), (0, ['-','2','3'])] 0)
      = (⟨writeArgs (List.replicate 4 Argument.uninit) 0 [Argument.i64 45, Argument.i64 (-23)],
          [⟨['m','o','v','e'], ['i','i'], 7⟩]⟩,
         PResult.invoked 7 (writeArgs (List.replicate 4 Argument.uninit) 0
           [Argument.i64 45, Argument.i64 (-23)]))
    ∧ writeArgs (List.replicate 4 Argument.uninit) 0 [Argument.i64 45, Argument.i64 (-23)]
        = [Argument.i64 45, Argument.i64 (-23), Argument.uninit, Argument.uninit] := by
  refine ⟨by decide, ?_, by decide⟩
  exact (c2_valid_line_invokes_handler defaultConfig
    ⟨List.replicate 4 Argument.uninit, [⟨['m','o','v','e'], ['i','i'], 7⟩]⟩
    ['m','o','v','e'] ['i','i'] 7
    [(0, ['4','5']), (0, ['-','2','3'])]
    [Argument.i64 45, Argument.i64 (-23)] 0
    (by decide) (by decide) rfl rfl
    (List.Forall₂.cons (by decide) (List.Forall₂.cons (by decide) List.Forall₂.nil))
    (by decide)).1

end CommandParser
